import Mathlib

/-!
Verification development for `tunnel_rpc/methods.py`.

The Python module is shallowly embedded over `List Char` strings:

* `parse_output` (with its helpers `replaceCrlf`, `splitDivider`, `splitNl`,
  `matchTagLine`, `insertTag`) models lines 77-97;
* `fnmatch` / `osPathJoin` / `selectMember` / `retrieve_archive_base64`
  model lines 100-140 (the tar container and base64 transport are abstracted
  to a list of members, the stdlib glob is embedded directly);
* `eval_commands` / `run` model lines 40-74 and 143-166 as event-trace
  producers over an abstract Docker API whose calls can fail
  (`ApiBehavior`); a raised exception is modelled as `Except.error`
  propagating outward, with the aborted call contributing no event.
-/

set_option autoImplicit false

namespace TunnelRpc

/-- Strings are embedded as lists of characters. -/
abbrev Str := List Char

/-! ## OutputParser: `parse_output`, lines 77-97 -/

/-- `output.replace("\r\n", "\n")` (line 88): left-to-right,
non-overlapping replacement of the two-character separator. -/
def replaceCrlf : Str → Str
  | [] => []
  | [c] => [c]
  | c :: c2 :: rest =>
      if c = '\r' ∧ c2 = '\n' then '\n' :: replaceCrlf rest
      else c :: replaceCrlf (c2 :: rest)

/-- `.split("---\n")` (line 88): Python `str.split` with the literal
four-character separator, scanning left to right, non-overlapping; a text
of fewer than four characters cannot contain the separator. -/
def splitDivider : Str → List Str
  | [] => [[]]
  | [a] => [[a]]
  | [a, b] => [[a, b]]
  | [a, b, c] => [[a, b, c]]
  | a :: b :: c :: d :: rest =>
      if a = '-' ∧ b = '-' ∧ c = '-' ∧ d = '\n' then [] :: splitDivider rest
      else
        match splitDivider (b :: c :: d :: rest) with
        | [] => [[a]]
        | blk :: bs => (a :: blk) :: bs

/-- `command_text.split("\n")` (line 90). -/
def splitNl : Str → List Str
  | [] => [[]]
  | c :: rest =>
      if c = '\n' then [] :: splitNl rest
      else
        match splitNl rest with
        | [] => [[c]]
        | l :: ls => (c :: l) :: ls

/-- `re.match(r"^\[([^\]]*)\] (.*)$", line)` (line 91), on a line that
contains no newline: an opening bracket, the maximal bracket-free run as
the tag, a closing bracket, one space, and the remainder as the value. -/
def matchTagLine (line : Str) : Option (Str × Str) :=
  match line with
  | [] => none
  | c :: rest =>
      if c = '[' then
        let key := rest.takeWhile (fun x => x ≠ ']')
        match rest.drop key.length with
        | [] => none
        | [_] => none
        | d1 :: d2 :: value =>
            if d1 = ']' ∧ d2 = ' ' then some (key, value) else none
      else none

/-- A `defaultdict(list)` snapshot: tag names to value lines, in key
insertion order (Python dicts preserve insertion order). -/
abbrev Record := List (Str × List Str)

/-- `command[key].append(value)` (line 94): append to an existing key's
list, or add a new key at the end. -/
def insertTag (command : Record) (k : Str) (v : Str) : Record :=
  match command with
  | [] => [(k, [v])]
  | (k0, vs) :: rest =>
      if k0 = k then (k0, vs ++ [v]) :: rest
      else (k0, vs) :: insertTag rest k v

/-- One iteration of the inner loop of `parse_output` (lines 90-94). -/
def parseLine (command : Record) (line : Str) : Record :=
  match matchTagLine line with
  | some kv => insertTag command kv.1 kv.2
  | none => command

/-- The record built from one block (lines 89-94). -/
def parseBlock (command_text : Str) : Record :=
  (splitNl command_text).foldl parseLine []

/-- `any(command)` (line 95): `any` over the dict iterates keys, and a
string key is truthy iff it is non-empty. -/
def keepRecord (command : Record) : Bool :=
  command.any (fun kv => !kv.1.isEmpty)

/-- `parse_output` (lines 87-97). -/
def parse_output (output : Str) : List Record :=
  ((splitDivider (replaceCrlf output)).map parseBlock).filter keepRecord

/-! ## ArchiveFilter: `retrieve_archive_base64`, lines 100-140

The stdlib `fnmatch.fnmatch(name, pat)` is embedded directly: on a POSIX
host `os.path.normcase` is the identity, so matching is case-sensitive;
the pattern language is `*` (any run of characters, `/` included), `?`
(any one character), `[...]`/`[!...]` classes with ranges, and literal
characters.  The matcher is written with a fuel argument so that it is
structurally recursive; each step consumes at least one character of the
pattern or of the name, so `pattern.length + name.length + 1` fuel always
suffices. -/

/-- Membership test for one `[...]` class body: single characters, and
`lo-hi` ranges by code point (an inverted range matches nothing, a leading
or trailing dash is a literal). -/
def globClassMatch (c : Char) : List Char → Bool
  | [] => false
  | lo :: '-' :: hi :: rest =>
      (decide (lo ≤ hi) && decide (lo ≤ c) && decide (c ≤ hi)) || globClassMatch c rest
  | x :: rest => c = x || globClassMatch c rest

/-- Split a list at its first `']'`. -/
def breakRBracket : List Char → Option (List Char × List Char)
  | [] => none
  | ']' :: rest => some ([], rest)
  | c :: rest =>
      match breakRBracket rest with
      | some (a, b) => some (c :: a, b)
      | none => none

/-- Parse the body of a glob character class, `ps` being the pattern text
after the opening `[`: an optional `!` negation, then (as in
`fnmatch.translate`) a leading `]` taken as a literal, up to the closing
`]`.  `none` when there is no closing `]`, in which case the `[` is a
literal character. -/
def splitGlobClass (ps : List Char) : Option (Bool × List Char × List Char) :=
  match ps with
  | '!' :: ']' :: ps2 =>
      (match breakRBracket ps2 with
       | some (a, b) => some (true, ']' :: a, b)
       | none => none)
  | '!' :: ps1 =>
      (match breakRBracket ps1 with
       | some (a, b) => some (true, a, b)
       | none => none)
  | ']' :: ps2 =>
      (match breakRBracket ps2 with
       | some (a, b) => some (false, ']' :: a, b)
       | none => none)
  | _ =>
      (match breakRBracket ps with
       | some (a, b) => some (false, a, b)
       | none => none)

/-- Full-string glob matching, `globMatchFuel fuel pattern name`. -/
def globMatchFuel : Nat → List Char → List Char → Bool
  | 0, _, _ => false
  | _ + 1, [], s => s.isEmpty
  | fuel + 1, '*' :: ps, s =>
      globMatchFuel fuel ps s ||
        (match s with
         | [] => false
         | _ :: t => globMatchFuel fuel ('*' :: ps) t)
  | fuel + 1, '?' :: ps, s =>
      (match s with
       | [] => false
       | _ :: t => globMatchFuel fuel ps t)
  | fuel + 1, '[' :: ps, s =>
      (match splitGlobClass ps with
       | some (neg, cls, rest) =>
           (match s with
            | [] => false
            | c :: t => (globClassMatch c cls != neg) && globMatchFuel fuel rest t)
       | none =>
           (match s with
            | [] => false
            | c :: t => (c = '[') && globMatchFuel fuel ps t))
  | fuel + 1, p :: ps, s =>
      (match s with
       | [] => false
       | c :: t => (p = c) && globMatchFuel fuel ps t)

/-- `fnmatch.fnmatch(name, pat)` on a POSIX host (line 131). -/
def fnmatch (name pat : Str) : Bool :=
  globMatchFuel (pat.length + name.length + 1) pat name

/-- `os.path.join(a, b)` under `posixpath` semantics (line 131). -/
def osPathJoin (a b : Str) : Str :=
  match b with
  | '/' :: _ => b
  | _ =>
      match a with
      | [] => b
      | _ => if a.getLast? = some '/' then a ++ b else a ++ '/' :: b

/-- One member of a tar archive; the tar container format and the base64
transport encoding are collaborator-level, so an archive is modelled as
its list of members (name, metadata-and-content payload). -/
structure TarMember where
  name : Str
  content : Str
deriving DecidableEq, Repr

/-- `dist` configuration: `distribution_config.get("base_path", "")` and
`.get("artifacts", [])` are modelled by optional fields read with
defaults (lines 112-113). -/
structure DistConfig where
  base_path : Option Str
  artifacts : Option (List Str)
deriving DecidableEq, Repr

/-- The member filter of lines 130-133:
`any(fnmatch(member.name, os.path.join(base_path, artifact)) for artifact
in artifacts)`. -/
def selectMember (cfg : DistConfig) (member : TarMember) : Bool :=
  (cfg.artifacts.getD []).any fun artifact =>
    fnmatch member.name (osPathJoin (cfg.base_path.getD []) artifact)

/-! ## Collaborator model: the Docker `APIClient`

Each API call either succeeds or raises; a raised call contributes no
event and the exception propagates (no handler exists in the source).
Successful calls are logged as events, in call order. -/

inductive Err where
  | apiError
deriving DecidableEq, Repr

instance exceptDecEq {ε α : Type} [DecidableEq ε] [DecidableEq α] :
    DecidableEq (Except ε α) := fun a b =>
  match a, b with
  | Except.error x, Except.error y =>
      if h : x = y then Decidable.isTrue (by rw [h])
      else Decidable.isFalse (fun e => h (Except.error.inj e))
  | Except.ok x, Except.ok y =>
      if h : x = y then Decidable.isTrue (by rw [h])
      else Decidable.isFalse (fun e => h (Except.ok.inj e))
  | Except.error x, Except.ok y => Decidable.isFalse (fun e => Except.noConfusion e)
  | Except.ok x, Except.error y => Decidable.isFalse (fun e => Except.noConfusion e)

inductive Event where
  | createContainer
  | putArchive (data : Str)
  | startContainer
  | attachSocket
  | write (s : Str)
  | closeSocket
  | waitContainer
  | logs
  | getArchive
  | removeContainer
deriving DecidableEq, Repr

/-- Outcomes of the Docker API calls made by one request. `writeOk`
decides, per written string, whether `os.write` succeeds. -/
structure ApiBehavior where
  createResult : Except Err Nat
  putArchiveOk : Bool
  startOk : Bool
  attachOk : Bool
  writeOk : Str → Bool
  closeOk : Bool
  waitOk : Bool
  logsResult : Except Err Str
  getArchiveResult : Except Err (List TarMember)
  removeOk : Bool

/-- `retrieve_archive_base64` (lines 100-140): `None` when the artifacts
list is missing or empty; otherwise the archive members streamed back by
`get_archive`, filtered by `selectMember`, repackaged (modelled as the
filtered member list, `some []` being a present, valid, empty archive). -/
def retrieve_archive_base64 (api : ApiBehavior) (container : Nat)
    (distribution_config : DistConfig) :
    Except Err (Option (List TarMember)) × List Event :=
  let artifacts := distribution_config.artifacts.getD []
  if artifacts.isEmpty then (Except.ok none, [])
  else
    match api.getArchiveResult with
    | Except.error e => (Except.error e, [])
    | Except.ok members =>
        (Except.ok (some (members.filter (selectMember distribution_config))),
         [Event.getArchive])

/-! ## CommandStreamer: `eval_commands`, lines 40-74 -/

/-- `cmd.replace("\n", " ; ")` (line 67). -/
def replaceNlSemi : Str → Str
  | [] => []
  | c :: rest =>
      if c = '\n' then ' ' :: ';' :: ' ' :: replaceNlSemi rest
      else c :: replaceNlSemi rest

/-- The sentinel appended after the commands (line 66). -/
def exitCommand : Str := "exit".toList

/-- The string `os.write` receives for one command (lines 67-69). -/
def commandWrite (cmd : Str) : Str :=
  replaceNlSemi cmd ++ ['\n']

/-- The write loop of lines 66-69; a failing `os.write` raises, aborting
the loop (the remaining commands are not written). Returns whether every
write succeeded, and the events. -/
def writeLoopTr (api : ApiBehavior) (cmds : List Str) : Bool × List Event :=
  match cmds with
  | [] => (true, [])
  | cmd :: rest =>
      let w := commandWrite cmd
      if api.writeOk w then
        let r := writeLoopTr api rest
        (r.1, Event.write w :: r.2)
      else (false, [])

/-- Lines 61-74: attach, write all commands plus the sentinel, close the
socket, wait for exit, fetch the combined logs. -/
def streamPhase (api : ApiBehavior) (commands : List Str) : Except Err Str × List Event :=
  if api.attachOk then
    let wl := writeLoopTr api (commands ++ [exitCommand])
    if wl.1 then
      if api.closeOk then
        if api.waitOk then
          match api.logsResult with
          | Except.ok out =>
              (Except.ok out,
               Event.attachSocket :: wl.2 ++ [Event.closeSocket, Event.waitContainer, Event.logs])
          | Except.error e =>
              (Except.error e,
               Event.attachSocket :: wl.2 ++ [Event.closeSocket, Event.waitContainer])
        else (Except.error Err.apiError, Event.attachSocket :: wl.2 ++ [Event.closeSocket])
      else (Except.error Err.apiError, Event.attachSocket :: wl.2)
    else (Except.error Err.apiError, Event.attachSocket :: wl.2)
  else (Except.error Err.apiError, [])

/-- Line 59 followed by the streaming phase. -/
def startPhase (api : ApiBehavior) (commands : List Str) : Except Err Str × List Event :=
  if api.startOk then
    let r := streamPhase api commands
    (r.1, Event.startContainer :: r.2)
  else (Except.error Err.apiError, [])

/-- `eval_commands` (lines 40-74). `if source_base64:` is Python
truthiness: `None` and the empty string both skip the unpack. -/
def eval_commands (api : ApiBehavior) (container : Nat) (commands : List Str)
    (source_base64 : Option Str) : Except Err Str × List Event :=
  match source_base64 with
  | some src =>
      if src.isEmpty then startPhase api commands
      else if api.putArchiveOk then
        let r := startPhase api commands
        (r.1, Event.putArchive src :: r.2)
      else (Except.error Err.apiError, [])
  | none => startPhase api commands

/-! ## Orchestrator: `run`, lines 143-166 -/

/-- The `run` request: `request.get("source", None)`,
`request.get("commands", [])`, `request.get("dist", \x7b\x7d)` are
modelled by optional fields read with those defaults. -/
structure Request where
  source : Option Str
  commands : Option (List Str)
  dist : Option DistConfig

/-- The dictionary returned on line 166. -/
structure RunResult where
  results : List Record
  output : Option (List TarMember)
deriving DecidableEq, Repr

/-- `run` (lines 143-166): create, evaluate, parse, collect, remove, in
that order; any raising call aborts the function, skipping everything
after it — in particular `remove_container` runs only when every earlier
call succeeded. -/
def run (api : ApiBehavior) (request : Request) : Except Err RunResult × List Event :=
  match api.createResult with
  | Except.error e => (Except.error e, [])
  | Except.ok container =>
      let ev := eval_commands api container (request.commands.getD []) request.source
      match ev.1 with
      | Except.error e => (Except.error e, Event.createContainer :: ev.2)
      | Except.ok lines =>
          let results := parse_output lines
          let ar := retrieve_archive_base64 api container
            (request.dist.getD { base_path := none, artifacts := none })
          match ar.1 with
          | Except.error e => (Except.error e, Event.createContainer :: ev.2 ++ ar.2)
          | Except.ok output_tarball =>
              if api.removeOk then
                (Except.ok { results := results, output := output_tarball },
                 Event.createContainer :: ev.2 ++ ar.2 ++ [Event.removeContainer])
              else (Except.error Err.apiError, Event.createContainer :: ev.2 ++ ar.2)

/-! ## Spec-side definitions

These three definitions follow the specification's words, not the code;
each is compared against the corresponding code-derived definition by a
claim. -/

/-- Modelled from the spec: blocks are delimited by a divider *line*, "a
line whose exact content is three dashes followed by a line break".  In
the line list produced by `splitNl`, exactly the non-final elements are
followed by a line break. -/
def specBlocksOfLines : List Str → List (List Str)
  | [] => [[]]
  | l :: rest =>
      if l = "---".toList ∧ rest ≠ [] then [] :: specBlocksOfLines rest
      else
        match specBlocksOfLines rest with
        | [] => [[l]]
        | b :: bs => (l :: b) :: bs

/-- Modelled from the spec: the parser that splits the normalized text
into blocks only at divider lines, then applies the tag-matching,
grouping and empty-block-dropping rules of the spec (which coincide with
the code's). -/
def specDividerLineParse (output : Str) : List Record :=
  ((specBlocksOfLines (splitNl (replaceCrlf output))).map
    (fun lines => lines.foldl parseLine [])).filter keepRecord

/-- Modelled from the spec: one re-emitted tagged line, `[tag] value`
plus its line break. -/
def emitLine (k v : Str) : Str :=
  '[' :: (k ++ ']' :: ' ' :: (v ++ ['\n']))

/-- Modelled from the spec: the lines of one tag's value list. -/
def emitVals (k : Str) : List Str → Str
  | [] => []
  | v :: vs => emitLine k v ++ emitVals k vs

/-- Modelled from the spec: the text block of one record, each tagged
line re-emitted in stored order. -/
def emitRecord : Record → Str
  | [] => []
  | (k, vs) :: rest => emitVals k vs ++ emitRecord rest

/-- Modelled from the spec: blocks joined by re-inserted divider lines. -/
def joinBlocks : List Str → Str
  | [] => []
  | [b] => b
  | b :: bs => b ++ '-' :: '-' :: '-' :: '\n' :: joinBlocks bs

/-- Modelled from the spec: the text reconstructed from a record list. -/
def reconstructOutput (rs : List Record) : Str :=
  joinBlocks (rs.map emitRecord)

/-- Modelled from the spec: glob matching in which `*` "matches within
one path segment" — identical to `globMatchFuel` except that `*` never
consumes a `/`. -/
def segGlobMatchFuel : Nat → List Char → List Char → Bool
  | 0, _, _ => false
  | _ + 1, [], s => s.isEmpty
  | fuel + 1, '*' :: ps, s =>
      segGlobMatchFuel fuel ps s ||
        (match s with
         | [] => false
         | c :: t => c ≠ '/' && segGlobMatchFuel fuel ('*' :: ps) t)
  | fuel + 1, '?' :: ps, s =>
      (match s with
       | [] => false
       | _ :: t => segGlobMatchFuel fuel ps t)
  | fuel + 1, '[' :: ps, s =>
      (match splitGlobClass ps with
       | some (neg, cls, rest) =>
           (match s with
            | [] => false
            | c :: t => (globClassMatch c cls != neg) && segGlobMatchFuel fuel rest t)
       | none =>
           (match s with
            | [] => false
            | c :: t => (c = '[') && segGlobMatchFuel fuel ps t))
  | fuel + 1, p :: ps, s =>
      (match s with
       | [] => false
       | c :: t => (p = c) && segGlobMatchFuel fuel ps t)

/-- Modelled from the spec: case-sensitive shell glob in which `*`
matches only within one path segment. -/
def specSegmentFnmatch (name pat : Str) : Bool :=
  segGlobMatchFuel (pat.length + name.length + 1) pat name

/-- Modelled from the spec: the member-selection predicate as the spec
states it, with segment-limited `*`. -/
def specSelectMember (cfg : DistConfig) (member : TarMember) : Bool :=
  (cfg.artifacts.getD []).any fun artifact =>
    specSegmentFnmatch member.name (osPathJoin (cfg.base_path.getD []) artifact)

/-! ## Analysis definitions

Computable predicates used to state and prove properties of the
embedding. -/

/-- Does the text begin with the four-character divider `---\n`? -/
def divHead : Str → Bool
  | a :: b :: c :: d :: _ => decide (a = '-' ∧ b = '-' ∧ c = '-' ∧ d = '\n')
  | _ => false

/-- Does the text contain the divider substring `---\n`? -/
def hasDiv : Str → Bool
  | [] => false
  | a :: rest => divHead (a :: rest) || hasDiv rest

/-- Does the text begin with `\r\n`? -/
def crlfHead : Str → Bool
  | a :: b :: _ => decide (a = '\r' ∧ b = '\n')
  | _ => false

/-- Does the text contain the substring `\r\n`? -/
def hasCrlf : Str → Bool
  | [] => false
  | a :: rest => crlfHead (a :: rest) || hasCrlf rest

/-- The re-emitted tagged line of C6's reconstruction, without its final
line break. -/
def lineBody (k v : Str) : Str :=
  '[' :: (k ++ ']' :: ' ' :: v)

/-- The (tag, value) pairs stored in a record, in stored order. -/
def pairsOf : Record → List (Str × Str)
  | [] => []
  | (k, vs) :: rest => vs.map (fun v => (k, v)) ++ pairsOf rest

/-- The strings written to the container's stdin, extracted from an
event trace in order. -/
def writesOf (evs : List Event) : List Str :=
  evs.filterMap fun e =>
    match e with
    | Event.write s => some s
    | _ => none

/-- The position of an event's API call in the source order of
`eval_commands` (lines 55-74). -/
def eventPhase : Event → Nat
  | Event.createContainer => 0
  | Event.putArchive _ => 1
  | Event.startContainer => 2
  | Event.attachSocket => 3
  | Event.write _ => 4
  | Event.closeSocket => 5
  | Event.waitContainer => 6
  | Event.logs => 7
  | Event.getArchive => 8
  | Event.removeContainer => 9

/-- Does every line of the (normalized, divider-split) input that matches
the tag pattern carry the empty tag? -/
def allEmptyTags (output : Str) : Bool :=
  (splitDivider (replaceCrlf output)).all fun b =>
    (splitNl b).all fun l =>
      match matchTagLine l with
      | some kv => kv.1.isEmpty
      | none => true

/-- A fully cooperative API: every call succeeds. -/
def apiAllOk : ApiBehavior where
  createResult := Except.ok 0
  putArchiveOk := true
  startOk := true
  attachOk := true
  writeOk := fun _ => true
  closeOk := true
  waitOk := true
  logsResult := Except.ok "[out] hi\n".toList
  getArchiveResult := Except.ok []
  removeOk := true

/-- An API whose `start` call raises; everything else succeeds. -/
def apiFailStart : ApiBehavior where
  createResult := Except.ok 7
  putArchiveOk := true
  startOk := false
  attachOk := true
  writeOk := fun _ => true
  closeOk := true
  waitOk := true
  logsResult := Except.ok "[out] hi\n".toList
  getArchiveResult := Except.ok []
  removeOk := true

/-- A member whose path has an extra segment under `base_path`. -/
def c3Member : TarMember where
  name := "build/sub/a.txt".toList
  content := "data".toList

/-- `dist` config with `base_path="build"`, `artifacts=["*.txt"]`. -/
def c3Config : DistConfig where
  base_path := some "build".toList
  artifacts := some ["*.txt".toList]

/-- An API whose archive retrieval returns exactly `c3Member`. -/
def c3Api : ApiBehavior where
  createResult := Except.ok 0
  putArchiveOk := true
  startOk := true
  attachOk := true
  writeOk := fun _ => true
  closeOk := true
  waitOk := true
  logsResult := Except.ok []
  getArchiveResult := Except.ok [c3Member]
  removeOk := true

/-- A request with one command and no source or dist section. -/
def plainRequest : Request where
  source := none
  commands := some ["echo hi".toList]
  dist := none

/-- The per-pair goodness needed to re-emit and reparse one record
faithfully: values are newline-free, never end in three dashes nor in a
carriage return; keys are newline- and bracket-free; value lists are
non-empty. -/
def GoodPair (kv : Str × List Str) : Prop :=
  kv.2 ≠ [] ∧ ']' ∉ kv.1 ∧ '\n' ∉ kv.1 ∧
    ∀ v ∈ kv.2, '\n' ∉ v ∧ (∀ t, v ≠ t ++ ['-', '-', '-']) ∧ v.getLast? ≠ some '\r'

/-- The part of `GoodPair` that every record built by `parse_output`
satisfies by construction (values may still end in dashes or `\r`). -/
def GoodStruct (r : Record) : Prop :=
  (r.map Prod.fst).Nodup ∧
    ∀ kv ∈ r, kv.2 ≠ [] ∧ ']' ∉ kv.1 ∧ '\n' ∉ kv.1 ∧ ∀ v ∈ kv.2, '\n' ∉ v

/-! ## Helper lemmas: substring scanning -/

theorem hasDiv_cons (a : Char) (l : Str) :
    hasDiv (a :: l) = (divHead (a :: l) || hasDiv l) := rfl

theorem hasCrlf_cons (a : Char) (l : Str) :
    hasCrlf (a :: l) = (crlfHead (a :: l) || hasCrlf l) := rfl

theorem nl_mem_of_hasDiv : ∀ l : Str, hasDiv l = true → '\n' ∈ l := by
  intro l h
  induction l with
  | nil => simp [hasDiv] at h
  | cons a rest ih =>
      rw [hasDiv_cons] at h
      rcases Bool.or_eq_true_iff.mp h with h1 | h2
      · match rest, h1 with
        | b :: c :: d :: t, h1 =>
            simp only [divHead, decide_eq_true_eq] at h1
            simp [h1.2.2.2]
      · exact List.mem_cons_of_mem _ (ih h2)

theorem hasDiv_eq_false_of_not_nl (l : Str) (h : '\n' ∉ l) : hasDiv l = false := by
  cases hd : hasDiv l with
  | false => rfl
  | true => exact absurd (nl_mem_of_hasDiv l hd) h

theorem nl_mem_of_hasCrlf : ∀ l : Str, hasCrlf l = true → '\n' ∈ l := by
  intro l h
  induction l with
  | nil => simp [hasCrlf] at h
  | cons a rest ih =>
      rw [hasCrlf_cons] at h
      rcases Bool.or_eq_true_iff.mp h with h1 | h2
      · match rest, h1 with
        | b :: t, h1 =>
            simp only [crlfHead, decide_eq_true_eq] at h1
            simp [h1.2]
      · exact List.mem_cons_of_mem _ (ih h2)

theorem hasCrlf_eq_false_of_not_nl (l : Str) (h : '\n' ∉ l) : hasCrlf l = false := by
  cases hd : hasCrlf l with
  | false => rfl
  | true => exact absurd (nl_mem_of_hasCrlf l hd) h

theorem replaceCrlf_eq_self : ∀ l : Str, hasCrlf l = false → replaceCrlf l = l := by
  intro l h
  induction l using replaceCrlf.induct with
  | case1 => rfl
  | case2 c => rfl
  | case3 c c2 rest hcc ih =>
      rw [hasCrlf_cons] at h
      simp [crlfHead, hcc.1, hcc.2] at h
  | case4 c c2 rest hcc ih =>
      rw [hasCrlf_cons] at h
      rcases Bool.or_eq_false_iff.mp h with ⟨h1, h2⟩
      simp only [replaceCrlf, if_neg hcc]
      rw [ih h2]

theorem getLast?_cons_of_ne_nil {α : Type} (a : α) (l : List α) (h : l ≠ []) :
    (a :: l).getLast? = l.getLast? := by
  match l with
  | [] => exact absurd rfl h
  | b :: t => exact List.getLast?_cons_cons

theorem replaceCrlf_append : ∀ a b : Str,
    ¬(a.getLast? = some '\r' ∧ b.head? = some '\n') →
    replaceCrlf (a ++ b) = replaceCrlf a ++ replaceCrlf b := by
  intro a b hj
  induction a using replaceCrlf.induct with
  | case1 => simp [replaceCrlf]
  | case2 c =>
      match b with
      | [] => simp [replaceCrlf]
      | h1 :: t =>
          have hne : ¬(c = '\r' ∧ h1 = '\n') := by
            intro ⟨e1, e2⟩
            exact hj ⟨by simp [e1], by simp [e2]⟩
          simp only [List.singleton_append, replaceCrlf, if_neg hne]
  | case3 c c2 rest hcc ih =>
      have hj2 : ¬(rest.getLast? = some '\r' ∧ b.head? = some '\n') := by
        intro ⟨e1, e2⟩
        have hr : rest ≠ [] := by
          intro e; rw [e] at e1; simp at e1
        refine hj ⟨?_, e2⟩
        rw [getLast?_cons_of_ne_nil, getLast?_cons_of_ne_nil] <;>
          simp [e1, hr]
      simp only [List.cons_append, replaceCrlf, if_pos hcc, List.append_eq]
      rw [ih hj2]
  | case4 c c2 rest hcc ih =>
      have hj2 : ¬((c2 :: rest).getLast? = some '\r' ∧ b.head? = some '\n') := by
        intro ⟨e1, e2⟩
        refine hj ⟨?_, e2⟩
        rw [getLast?_cons_of_ne_nil] <;> simp [e1]
      simp only [List.cons_append, replaceCrlf, if_neg hcc, List.append_eq]
      rw [show c2 :: (rest ++ b) = (c2 :: rest) ++ b from rfl, ih hj2]

theorem splitDivider_eq_single : ∀ l : Str, hasDiv l = false → splitDivider l = [l] := by
  intro l h
  induction l using splitDivider.induct with
  | case1 => rfl
  | case2 a => rfl
  | case3 a b => rfl
  | case4 a b c => rfl
  | case5 a b c d rest hcond ih =>
      rw [hasDiv_cons] at h
      simp [divHead, hcond.1, hcond.2.1, hcond.2.2.1, hcond.2.2.2] at h
  | case6 a b c d rest hcond heq ih =>
      rw [hasDiv_cons] at h
      rcases Bool.or_eq_false_iff.mp h with ⟨h1, h2⟩
      rw [ih h2] at heq
      exact absurd heq (by simp)
  | case7 a b c d rest hcond blk bs heq ih =>
      rw [hasDiv_cons] at h
      rcases Bool.or_eq_false_iff.mp h with ⟨h1, h2⟩
      have e := (ih h2).symm.trans heq
      rw [List.cons.injEq] at e
      simp only [splitDivider, if_neg hcond, heq]
      rw [← e.1, ← e.2]

theorem splitDivider_append_div : ∀ bq t : Str, hasDiv bq = false →
    splitDivider (bq ++ '-' :: '-' :: '-' :: '\n' :: t) = bq :: splitDivider t := by
  intro bq t h
  induction bq with
  | nil => simp [splitDivider]
  | cons x b ih =>
      rw [hasDiv_cons] at h
      rcases Bool.or_eq_false_iff.mp h with ⟨h1, h2⟩
      match b with
      | [] =>
          have hx : ¬(x = '-' ∧ '-' = '-' ∧ '-' = '-' ∧ '-' = '\n') := by
            intro hc; exact absurd hc.2.2.2 (by decide)
          simp only [List.nil_append, List.cons_append, splitDivider, if_neg hx]
          simp [splitDivider]
      | [y] =>
          have hx : ¬(x = '-' ∧ y = '-' ∧ '-' = '-' ∧ '-' = '\n') := by
            intro hc; exact absurd hc.2.2.2 (by decide)
          have ih2 := ih h2
          simp only [List.cons_append, List.nil_append] at ih2 ⊢
          rw [splitDivider, if_neg hx, ih2]
      | [y, z] =>
          have hx : ¬(x = '-' ∧ y = '-' ∧ z = '-' ∧ '-' = '\n') := by
            intro hc; exact absurd hc.2.2.2 (by decide)
          have ih2 := ih h2
          simp only [List.cons_append, List.nil_append] at ih2 ⊢
          rw [splitDivider, if_neg hx, ih2]
      | y :: z :: w :: b2 =>
          have hx : ¬(x = '-' ∧ y = '-' ∧ z = '-' ∧ w = '\n') := by
            intro hc
            simp [divHead, hc.1, hc.2.1, hc.2.2.1, hc.2.2.2] at h1
          have ih2 := ih h2
          simp only [List.cons_append] at ih2 ⊢
          rw [splitDivider, if_neg hx, ih2]

theorem joinBlocks_cons_cons (b b2 : Str) (bs : List Str) :
    joinBlocks (b :: b2 :: bs) = b ++ '-' :: '-' :: '-' :: '\n' :: joinBlocks (b2 :: bs) := rfl

theorem splitDivider_joinBlocks : ∀ bs : List Str, (∀ b ∈ bs, hasDiv b = false) →
    bs ≠ [] → splitDivider (joinBlocks bs) = bs := by
  intro bs h hne
  induction bs with
  | nil => exact absurd rfl hne
  | cons b rest ih =>
      match rest with
      | [] => exact splitDivider_eq_single b (h b (by simp))
      | b2 :: bs2 =>
          rw [joinBlocks_cons_cons, splitDivider_append_div _ _ (h b (by simp)),
            ih (fun x hx => h x (List.mem_cons_of_mem _ hx)) (by simp)]

theorem splitNl_ne_nil : ∀ s : Str, splitNl s ≠ [] := by
  intro s
  induction s with
  | nil => simp [splitNl]
  | cons c rest ih =>
      by_cases hc : c = '\n'
      · simp [splitNl, hc]
      · rw [splitNl, if_neg hc]
        match h : splitNl rest with
        | [] => simp
        | l :: ls => simp

theorem splitNl_append_nl : ∀ l rest : Str, '\n' ∉ l →
    splitNl (l ++ '\n' :: rest) = l :: splitNl rest := by
  intro l rest h
  induction l with
  | nil => simp [splitNl]
  | cons c l2 ih =>
      have hc : c ≠ '\n' := fun e => h (by simp [e])
      have ih2 := ih (fun m => h (List.mem_cons_of_mem _ m))
      rw [List.cons_append, splitNl, if_neg hc, ih2]

theorem splitNl_no_nl : ∀ s l : Str, l ∈ splitNl s → '\n' ∉ l := by
  intro s
  induction s with
  | nil =>
      intro l hl
      simp [splitNl] at hl
      simp [hl]
  | cons c rest ih =>
      intro l hl
      by_cases hc : c = '\n'
      · rw [splitNl, if_pos hc] at hl
        rcases List.mem_cons.mp hl with h1 | h2
        · simp [h1]
        · exact ih l h2
      · rw [splitNl, if_neg hc] at hl
        match h : splitNl rest with
        | [] => exact absurd h (splitNl_ne_nil rest)
        | l0 :: ls =>
            rw [h] at hl
            rcases List.mem_cons.mp hl with h1 | h2
            · have h0 : '\n' ∉ l0 := ih l0 (h ▸ List.mem_cons_self l0 ls)
              rw [h1]
              intro hm
              rcases List.mem_cons.mp hm with e | e
              · exact hc e.symm
              · exact h0 e
            · exact ih l (h ▸ List.mem_cons_of_mem _ h2)

theorem divHead_false_first (x : Char) (l : Str) (h : x ≠ '-') :
    divHead (x :: l) = false := by
  match l with
  | [] => rfl
  | [b] => rfl
  | [b, c] => rfl
  | b :: c :: d :: t =>
      simp only [divHead, decide_eq_false_iff_not]
      exact fun hc => h hc.1

theorem divHead_false_second (x y : Char) (l : Str) (h : y ≠ '-') :
    divHead (x :: y :: l) = false := by
  match l with
  | [] => rfl
  | [c] => rfl
  | c :: d :: t =>
      simp only [divHead, decide_eq_false_iff_not]
      exact fun hc => h hc.2.1

theorem divHead_false_third (x y z : Char) (l : Str) (h : z ≠ '-') :
    divHead (x :: y :: z :: l) = false := by
  match l with
  | [] => rfl
  | d :: t =>
      simp only [divHead, decide_eq_false_iff_not]
      exact fun hc => h hc.2.2.1

theorem divHead_false_fourth (x y z w : Char) (l : Str) (h : w ≠ '\n') :
    divHead (x :: y :: z :: w :: l) = false := by
  simp only [divHead, decide_eq_false_iff_not]
  exact fun hc => h hc.2.2.2

theorem crlfHead_false_first (x : Char) (l : Str) (h : x ≠ '\r') :
    crlfHead (x :: l) = false := by
  match l with
  | [] => rfl
  | y :: t =>
      simp only [crlfHead, decide_eq_false_iff_not]
      exact fun hc => h hc.1

theorem hasCrlf_append_false : ∀ a b : Str, hasCrlf a = false → hasCrlf b = false →
    ¬(a.getLast? = some '\r' ∧ b.head? = some '\n') → hasCrlf (a ++ b) = false := by
  intro a b ha hb hj
  induction a with
  | nil => simpa using hb
  | cons x a2 ih =>
      have ha2 : hasCrlf a2 = false := by
        rw [hasCrlf_cons] at ha
        exact (Bool.or_eq_false_iff.mp ha).2
      have hj2 : ¬(a2.getLast? = some '\r' ∧ b.head? = some '\n') := by
        intro ⟨e1, e2⟩
        have hne : a2 ≠ [] := fun e => by rw [e] at e1; simp at e1
        exact hj ⟨by rw [getLast?_cons_of_ne_nil x a2 hne]; exact e1, e2⟩
      rw [List.cons_append, hasCrlf_cons, Bool.or_eq_false_iff]
      refine ⟨?_, ih ha2 hj2⟩
      match a2 with
      | [] =>
          match b with
          | [] => rfl
          | y :: t =>
              have hne : ¬(x = '\r' ∧ y = '\n') :=
                fun ⟨e1, e2⟩ => hj ⟨by simp [e1], by simp [e2]⟩
              simp only [List.nil_append, crlfHead, decide_eq_false_iff_not]
              exact hne
      | y :: a3 =>
          have hne : ¬(x = '\r' ∧ y = '\n') := by
            intro ⟨e1, e2⟩
            rw [hasCrlf_cons] at ha
            simp [crlfHead, e1, e2] at ha
          simp only [List.cons_append, crlfHead, decide_eq_false_iff_not]
          exact hne

theorem hasDiv_append_nl : ∀ a rest : Str, '\n' ∉ a →
    (∀ t, a ≠ t ++ ['-', '-', '-']) → hasDiv rest = false →
    hasDiv (a ++ '\n' :: rest) = false := by
  intro a rest hnl h3 hrest
  induction a with
  | nil =>
      rw [List.nil_append, hasDiv_cons, Bool.or_eq_false_iff]
      exact ⟨divHead_false_first _ _ (by decide), hrest⟩
  | cons x a2 ih =>
      have hnl2 : '\n' ∉ a2 := fun m => hnl (List.mem_cons_of_mem _ m)
      have h32 : ∀ t, a2 ≠ t ++ ['-', '-', '-'] := by
        intro t e
        exact h3 (x :: t) (by rw [e]; rfl)
      rw [List.cons_append, hasDiv_cons, Bool.or_eq_false_iff]
      refine ⟨?_, ih hnl2 h32⟩
      match a2 with
      | [] =>
          exact divHead_false_second _ _ _ (by decide)
      | [y] =>
          exact divHead_false_third _ _ _ _ (by decide)
      | [y, z] =>
          simp only [List.cons_append, List.nil_append, divHead, decide_eq_false_iff_not]
          intro ⟨e1, e2, e3, _⟩
          exact h3 [] (by simp [e1, e2, e3])
      | y :: z :: w :: a3 =>
          simp only [List.cons_append, divHead, decide_eq_false_iff_not]
          intro ⟨_, _, _, e4⟩
          exact hnl (by simp [e4])

theorem getLast?_append_of_ne : ∀ w v : Str, v ≠ [] →
    (w ++ v).getLast? = v.getLast? := by
  intro w v h
  induction w with
  | nil => rfl
  | cons x w2 ih =>
      rw [List.cons_append, getLast?_cons_of_ne_nil _ _ (by simp [h]), ih]

theorem append_ne_dashes : ∀ w v : Str, w.getLast? = some ' ' →
    (∀ t, v ≠ t ++ ['-', '-', '-']) → ∀ t, w ++ v ≠ t ++ ['-', '-', '-'] := by
  intro w v hw hv t heq
  have hrev := congrArg List.reverse heq
  simp only [List.reverse_append] at hrev
  have hdr : (['-', '-', '-'] : Str).reverse = ['-', '-', '-'] := by decide
  rw [hdr] at hrev
  match hvr : v.reverse with
  | [] =>
      rw [hvr, List.nil_append] at hrev
      have : w.getLast? = some '-' := by
        rw [← List.head?_reverse, hrev]; rfl
      rw [hw] at this
      exact absurd (Option.some.inj this) (by decide)
  | [x] =>
      rw [hvr] at hrev
      simp only [List.cons_append, List.nil_append, List.cons.injEq] at hrev
      have : w.getLast? = some '-' := by
        rw [← List.head?_reverse, hrev.2]; rfl
      rw [hw] at this
      exact absurd (Option.some.inj this) (by decide)
  | [x, y] =>
      rw [hvr] at hrev
      simp only [List.cons_append, List.nil_append, List.cons.injEq] at hrev
      have : w.getLast? = some '-' := by
        rw [← List.head?_reverse, hrev.2.2]; rfl
      rw [hw] at this
      exact absurd (Option.some.inj this) (by decide)
  | x :: y :: z :: u =>
      rw [hvr] at hrev
      simp only [List.cons_append, List.cons.injEq] at hrev
      have hv3 : v = u.reverse ++ ['-', '-', '-'] := by
        have : v.reverse.reverse = (x :: y :: z :: u).reverse := by rw [hvr]
        rw [List.reverse_reverse] at this
        rw [this, hrev.1, hrev.2.1, hrev.2.2.1]
        simp
      exact hv u.reverse hv3

/-! ## Helper lemmas: the reconstructed text -/

theorem emitLine_eq (k v : Str) : emitLine k v = lineBody k v ++ ['\n'] := by
  simp [emitLine, lineBody]

theorem lineBody_split (k v : Str) :
    lineBody k v = (('[' :: k) ++ [']', ' ']) ++ v := by
  simp [lineBody]

theorem lineBody_sep_last (k : Str) :
    ((('[' :: k) ++ [']', ' ']) : Str).getLast? = some ' ' := by
  rw [show (('[' :: k) ++ [']', ' '] : Str) = (('[' :: k) ++ [']']) ++ [' '] by simp]
  exact List.getLast?_concat _

theorem nl_not_mem_lineBody (k v : Str) (hk : '\n' ∉ k) (hv : '\n' ∉ v) :
    '\n' ∉ lineBody k v := by
  intro hm
  simp only [lineBody, List.mem_cons, List.mem_append] at hm
  rcases hm with e | e | e | e | e
  · exact absurd e (by decide)
  · exact hk e
  · exact absurd e (by decide)
  · exact absurd e (by decide)
  · exact hv e

theorem lineBody_ne_dashes (k v : Str) (hv : ∀ t, v ≠ t ++ ['-', '-', '-']) :
    ∀ t, lineBody k v ≠ t ++ ['-', '-', '-'] := by
  rw [lineBody_split]
  exact append_ne_dashes _ _ (lineBody_sep_last k) hv

theorem lineBody_last_ne_cr (k v : Str) (hv : v.getLast? ≠ some '\r') :
    (lineBody k v).getLast? ≠ some '\r' := by
  rw [lineBody_split]
  match v with
  | [] =>
      rw [List.append_nil]
      rw [lineBody_sep_last k]
      decide
  | c :: t =>
      rw [getLast?_append_of_ne _ _ (by simp)]
      exact hv

theorem emitLine_last (k v : Str) : (emitLine k v).getLast? = some '\n' := by
  rw [emitLine_eq]
  exact List.getLast?_concat _

theorem hasDiv_emitLine_append (k v rest : Str) (hk : '\n' ∉ k)
    (hv : '\n' ∉ v) (hv3 : ∀ t, v ≠ t ++ ['-', '-', '-'])
    (hrest : hasDiv rest = false) :
    hasDiv (emitLine k v ++ rest) = false := by
  rw [emitLine_eq, List.append_assoc, List.singleton_append]
  exact hasDiv_append_nl _ _ (nl_not_mem_lineBody k v hk hv)
    (lineBody_ne_dashes k v hv3) hrest

theorem hasCrlf_emitLine (k v : Str) (hk : '\n' ∉ k) (hv : '\n' ∉ v)
    (hvr : v.getLast? ≠ some '\r') :
    hasCrlf (emitLine k v) = false := by
  rw [emitLine_eq]
  refine hasCrlf_append_false _ _ ?_ (by rfl) ?_
  · exact hasCrlf_eq_false_of_not_nl _ (nl_not_mem_lineBody k v hk hv)
  · intro ⟨e1, e2⟩
    exact lineBody_last_ne_cr k v hvr e1

theorem hasCrlf_emitLine_append (k v rest : Str) (hk : '\n' ∉ k) (hv : '\n' ∉ v)
    (hvr : v.getLast? ≠ some '\r') (hrest : hasCrlf rest = false) :
    hasCrlf (emitLine k v ++ rest) = false := by
  refine hasCrlf_append_false _ _ (hasCrlf_emitLine k v hk hv hvr) hrest ?_
  intro ⟨e1, e2⟩
  rw [emitLine_last] at e1
  exact absurd (Option.some.inj e1) (by decide)

theorem hasDiv_emitVals_append (k : Str) : ∀ (vs : List Str) (rest : Str),
    '\n' ∉ k →
    (∀ v ∈ vs, '\n' ∉ v ∧ (∀ t, v ≠ t ++ ['-', '-', '-']) ∧ v.getLast? ≠ some '\r') →
    hasDiv rest = false → hasDiv (emitVals k vs ++ rest) = false := by
  intro vs
  induction vs with
  | nil => intro rest _ _ h; simpa [emitVals] using h
  | cons v vs2 ih =>
      intro rest hk hgood hrest
      rw [emitVals, List.append_assoc]
      have hv := hgood v (by simp)
      exact hasDiv_emitLine_append k v _ hk hv.1 hv.2.1
        (ih _ hk (fun x hx => hgood x (List.mem_cons_of_mem _ hx)) hrest)

theorem hasCrlf_emitVals_append (k : Str) : ∀ (vs : List Str) (rest : Str),
    '\n' ∉ k →
    (∀ v ∈ vs, '\n' ∉ v ∧ (∀ t, v ≠ t ++ ['-', '-', '-']) ∧ v.getLast? ≠ some '\r') →
    hasCrlf rest = false → hasCrlf (emitVals k vs ++ rest) = false := by
  intro vs
  induction vs with
  | nil => intro rest _ _ h; simpa [emitVals] using h
  | cons v vs2 ih =>
      intro rest hk hgood hrest
      rw [emitVals, List.append_assoc]
      have hv := hgood v (by simp)
      exact hasCrlf_emitLine_append k v _ hk hv.1 hv.2.2
        (ih _ hk (fun x hx => hgood x (List.mem_cons_of_mem _ hx)) hrest)

theorem hasDiv_emitRecord_append : ∀ (r : Record) (rest : Str),
    (∀ kv ∈ r, GoodPair kv) → hasDiv rest = false →
    hasDiv (emitRecord r ++ rest) = false := by
  intro r
  induction r with
  | nil => intro rest _ h; simpa [emitRecord] using h
  | cons kv r2 ih =>
      intro rest hgood hrest
      obtain ⟨k, vs⟩ := kv
      rw [emitRecord, List.append_assoc]
      have hg := hgood (k, vs) (by simp)
      exact hasDiv_emitVals_append k vs _ hg.2.2.1 hg.2.2.2
        (ih _ (fun x hx => hgood x (List.mem_cons_of_mem _ hx)) hrest)

theorem hasCrlf_emitRecord_append : ∀ (r : Record) (rest : Str),
    (∀ kv ∈ r, GoodPair kv) → hasCrlf rest = false →
    hasCrlf (emitRecord r ++ rest) = false := by
  intro r
  induction r with
  | nil => intro rest _ h; simpa [emitRecord] using h
  | cons kv r2 ih =>
      intro rest hgood hrest
      obtain ⟨k, vs⟩ := kv
      rw [emitRecord, List.append_assoc]
      have hg := hgood (k, vs) (by simp)
      exact hasCrlf_emitVals_append k vs _ hg.2.2.1 hg.2.2.2
        (ih _ (fun x hx => hgood x (List.mem_cons_of_mem _ hx)) hrest)

theorem emitVals_last_ne_cr (k : Str) : ∀ vs : List Str,
    (emitVals k vs).getLast? ≠ some '\r' := by
  intro vs
  induction vs with
  | nil => simp [emitVals]
  | cons v vs2 ih =>
      rw [emitVals]
      by_cases he : emitVals k vs2 = []
      · rw [he, List.append_nil, emitLine_last]
        decide
      · rw [getLast?_append_of_ne _ _ he]
        exact ih

theorem emitRecord_last_ne_cr : ∀ r : Record,
    (emitRecord r).getLast? ≠ some '\r' := by
  intro r
  induction r with
  | nil => simp [emitRecord]
  | cons kv r2 ih =>
      obtain ⟨k, vs⟩ := kv
      rw [emitRecord]
      by_cases he : emitRecord r2 = []
      · rw [he, List.append_nil]
        exact emitVals_last_ne_cr k vs
      · rw [getLast?_append_of_ne _ _ he]
        exact ih

theorem hasCrlf_joinBlocks : ∀ bs : List Str,
    (∀ b ∈ bs, hasCrlf b = false ∧ b.getLast? ≠ some '\r') →
    hasCrlf (joinBlocks bs) = false := by
  intro bs h
  induction bs with
  | nil => rfl
  | cons b rest ih =>
      match rest with
      | [] => exact (h b (by simp)).1
      | b2 :: bs2 =>
          rw [joinBlocks_cons_cons]
          have hJ : hasCrlf ('-' :: '-' :: '-' :: '\n' :: joinBlocks (b2 :: bs2)) = false := by
            have htail := ih (fun x hx => h x (List.mem_cons_of_mem _ hx))
            rw [hasCrlf_cons, crlfHead_false_first _ _ (by decide),
              hasCrlf_cons, crlfHead_false_first _ _ (by decide),
              hasCrlf_cons, crlfHead_false_first _ _ (by decide),
              hasCrlf_cons, crlfHead_false_first _ _ (by decide)]
            simp [htail]
          refine hasCrlf_append_false _ _ (h b (by simp)).1 hJ ?_
          intro ⟨e1, e2⟩
          exact (h b (by simp)).2 e1

/-! ## Helper lemmas: reparsing one emitted block -/

theorem takeWhile_keys (u : Str) : ∀ k : Str, ']' ∉ k →
    (k ++ ']' :: u).takeWhile (fun x => x ≠ ']') = k := by
  intro k hk
  induction k with
  | nil => simp [List.takeWhile_cons]
  | cons c k2 ih =>
      have hc : c ≠ ']' := fun e => hk (by simp [e])
      have ih2 := ih (fun m => hk (List.mem_cons_of_mem _ m))
      rw [List.cons_append, List.takeWhile_cons]
      simp only [decide_not] at ih2 ⊢
      simp [hc, ih2]

theorem matchTagLine_lineBody (k v : Str) (hk : ']' ∉ k) :
    matchTagLine (lineBody k v) = some (k, v) := by
  rw [lineBody, matchTagLine]
  rw [if_pos rfl]
  simp only
  rw [takeWhile_keys _ k hk, List.drop_left]
  simp

theorem parseLine_nil (acc : Record) : parseLine acc [] = acc := rfl

theorem parseLine_lineBody (acc : Record) (k v : Str) (hk : ']' ∉ k) :
    parseLine acc (lineBody k v) = insertTag acc k v := by
  rw [parseLine, matchTagLine_lineBody k v hk]

theorem splitNl_emitVals (k : Str) : ∀ (vs : List Str) (s : Str), '\n' ∉ k →
    (∀ v ∈ vs, '\n' ∉ v) →
    splitNl (emitVals k vs ++ s) = vs.map (lineBody k) ++ splitNl s := by
  intro vs
  induction vs with
  | nil => intro s _ _; simp [emitVals]
  | cons v vs2 ih =>
      intro s hk hvs
      rw [emitVals, List.append_assoc, emitLine_eq, List.append_assoc,
        List.singleton_append,
        splitNl_append_nl _ _ (nl_not_mem_lineBody k v hk (hvs v (by simp))),
        ih s hk (fun x hx => hvs x (List.mem_cons_of_mem _ hx))]
      simp

theorem splitNl_emitRecord : ∀ (r : Record) (s : Str),
    (∀ kv ∈ r, '\n' ∉ kv.1 ∧ ∀ v ∈ kv.2, '\n' ∉ v) →
    splitNl (emitRecord r ++ s) =
      (pairsOf r).map (fun p => lineBody p.1 p.2) ++ splitNl s := by
  intro r
  induction r with
  | nil => intro s _; simp [emitRecord, pairsOf]
  | cons kv r2 ih =>
      intro s hgood
      obtain ⟨k, vs⟩ := kv
      have hg := hgood (k, vs) (by simp)
      rw [emitRecord, List.append_assoc,
        splitNl_emitVals k vs _ hg.1 hg.2,
        ih s (fun x hx => hgood x (List.mem_cons_of_mem _ hx)), pairsOf]
      simp [List.map_map, Function.comp]

theorem foldl_lines_eq_insert : ∀ (pairs : List (Str × Str)) (acc : Record),
    (∀ p ∈ pairs, ']' ∉ p.1) →
    (pairs.map (fun p => lineBody p.1 p.2)).foldl parseLine acc =
      pairs.foldl (fun a p => insertTag a p.1 p.2) acc := by
  intro pairs
  induction pairs with
  | nil => intro acc _; rfl
  | cons p ps ih =>
      intro acc h
      rw [List.map_cons, List.foldl_cons, List.foldl_cons,
        parseLine_lineBody acc p.1 p.2 (h p (by simp)),
        ih _ (fun x hx => h x (List.mem_cons_of_mem _ hx))]

theorem insertTag_of_not_mem : ∀ (acc : Record) (k v : Str),
    k ∉ acc.map Prod.fst → insertTag acc k v = acc ++ [(k, [v])] := by
  intro acc k v h
  induction acc with
  | nil => rfl
  | cons kv acc2 ih =>
      obtain ⟨k0, vs0⟩ := kv
      have hne : k0 ≠ k := fun e => h (by simp [e])
      rw [insertTag, if_neg hne, ih (fun m => h (by simp [m]))]
      rfl

theorem insertTag_last_group : ∀ (pre : Record) (k : Str) (cur : List Str) (v : Str),
    k ∉ pre.map Prod.fst →
    insertTag (pre ++ [(k, cur)]) k v = pre ++ [(k, cur ++ [v])] := by
  intro pre k cur v h
  induction pre with
  | nil => simp [insertTag]
  | cons kv pre2 ih =>
      obtain ⟨k0, vs0⟩ := kv
      have hne : k0 ≠ k := fun e => h (by simp [e])
      rw [List.cons_append, insertTag, if_neg hne, ih (fun m => h (by simp [m]))]
      rfl

theorem foldl_insert_group : ∀ (vs : List Str) (pre : Record) (k : Str) (cur : List Str),
    k ∉ pre.map Prod.fst →
    (vs.map (fun v => (k, v))).foldl (fun a p => insertTag a p.1 p.2) (pre ++ [(k, cur)]) =
      pre ++ [(k, cur ++ vs)] := by
  intro vs
  induction vs with
  | nil => intro pre k cur _; simp
  | cons v vs2 ih =>
      intro pre k cur h
      rw [List.map_cons, List.foldl_cons]
      simp only
      rw [insertTag_last_group pre k cur v h, ih pre k _ h]
      simp

theorem foldl_insert_pairs : ∀ (r : Record) (acc : Record),
    ((acc ++ r).map Prod.fst).Nodup → (∀ kv ∈ r, kv.2 ≠ []) →
    (pairsOf r).foldl (fun a p => insertTag a p.1 p.2) acc = acc ++ r := by
  intro r
  induction r with
  | nil => intro acc _ _; simp [pairsOf]
  | cons kv r2 ih =>
      intro acc hnd hne
      obtain ⟨k, vs⟩ := kv
      have hkacc : k ∉ acc.map Prod.fst := by
        intro hm
        rw [List.map_append, List.nodup_append] at hnd
        exact hnd.2.2 hm (by simp)
      match vs, hne (k, vs) (by simp) with
      | v0 :: vs2, _ =>
          have hacc2 : (acc ++ [(k, [v0] ++ vs2)]) ++ r2 = acc ++ ((k, v0 :: vs2) :: r2) := by
            simp
          have hnd2 : (((acc ++ [(k, [v0] ++ vs2)]) ++ r2).map Prod.fst).Nodup := by
            rw [hacc2]; exact hnd
          rw [pairsOf, List.foldl_append, List.map_cons, List.foldl_cons]
          simp only
          rw [insertTag_of_not_mem acc k v0 hkacc,
            foldl_insert_group vs2 acc k [v0] hkacc,
            ih (acc ++ [(k, [v0] ++ vs2)]) hnd2
              (fun x hx => hne x (List.mem_cons_of_mem _ hx)),
            hacc2]

theorem pairsOf_mem : ∀ (r : Record) (p : Str × Str), p ∈ pairsOf r →
    ∃ kv, kv ∈ r ∧ p.1 = kv.1 ∧ p.2 ∈ kv.2 := by
  intro r
  induction r with
  | nil => intro p hp; simp [pairsOf] at hp
  | cons kv r2 ih =>
      intro p hp
      obtain ⟨k, vs⟩ := kv
      rw [pairsOf] at hp
      rcases List.mem_append.mp hp with h1 | h2
      · rcases List.mem_map.mp h1 with ⟨v, hv, hpe⟩
        exact ⟨(k, vs), by simp, by rw [← hpe], by rw [← hpe]; exact hv⟩
      · rcases ih p h2 with ⟨kv2, hkv2, he⟩
        exact ⟨kv2, List.mem_cons_of_mem _ hkv2, he⟩

theorem parseBlock_emitRecord (r : Record)
    (hnd : (r.map Prod.fst).Nodup)
    (hgood : ∀ kv ∈ r, kv.2 ≠ [] ∧ ']' ∉ kv.1 ∧ '\n' ∉ kv.1 ∧ ∀ v ∈ kv.2, '\n' ∉ v) :
    parseBlock (emitRecord r) = r := by
  rw [parseBlock]
  have h0 := splitNl_emitRecord r []
    (fun kv hkv => ⟨(hgood kv hkv).2.2.1, (hgood kv hkv).2.2.2⟩)
  rw [List.append_nil] at h0
  rw [h0, List.foldl_append]
  have hks : ∀ p ∈ pairsOf r, ']' ∉ p.1 := by
    intro p hp
    rcases pairsOf_mem r p hp with ⟨kv, hkv, he, _⟩
    rw [he]
    exact (hgood kv hkv).2.1
  rw [foldl_lines_eq_insert (pairsOf r) [] hks,
    foldl_insert_pairs r [] (by simpa using hnd) (fun kv hkv => (hgood kv hkv).1)]
  rfl

theorem parse_output_def (s : Str) :
    parse_output s = ((splitDivider (replaceCrlf s)).map parseBlock).filter keepRecord := rfl

theorem parse_reconstruct (rs : List Record)
    (hgood : ∀ r ∈ rs, keepRecord r = true ∧ (r.map Prod.fst).Nodup ∧ ∀ kv ∈ r, GoodPair kv) :
    parse_output (reconstructOutput rs) = rs := by
  match rs with
  | [] => rfl
  | r0 :: rs2 =>
      have hpairs : ∀ r ∈ r0 :: rs2, ∀ kv ∈ r, GoodPair kv :=
        fun r hr => (hgood r hr).2.2
      have hdiv : ∀ b ∈ (r0 :: rs2).map emitRecord, hasDiv b = false := by
        intro b hb
        rcases List.mem_map.mp hb with ⟨r, hr, hbe⟩
        rw [← hbe, ← List.append_nil (emitRecord r)]
        exact hasDiv_emitRecord_append r [] (hpairs r hr) rfl
      have hcr : hasCrlf (reconstructOutput (r0 :: rs2)) = false := by
        rw [reconstructOutput]
        refine hasCrlf_joinBlocks _ ?_
        intro b hb
        rcases List.mem_map.mp hb with ⟨r, hr, hbe⟩
        constructor
        · rw [← hbe, ← List.append_nil (emitRecord r)]
          exact hasCrlf_emitRecord_append r [] (hpairs r hr) rfl
        · rw [← hbe]
          exact emitRecord_last_ne_cr r
      rw [parse_output_def, replaceCrlf_eq_self _ hcr, reconstructOutput,
        splitDivider_joinBlocks _ hdiv (by simp)]
      have hmap : ((r0 :: rs2).map emitRecord).map parseBlock = r0 :: rs2 := by
        rw [List.map_map]
        have : ∀ r ∈ r0 :: rs2, (parseBlock ∘ emitRecord) r = r := by
          intro r hr
          have hg := hgood r hr
          exact parseBlock_emitRecord r hg.2.1
            (fun kv hkv =>
              ⟨(hg.2.2 kv hkv).1, (hg.2.2 kv hkv).2.1, (hg.2.2 kv hkv).2.2.1,
                fun v hv => ((hg.2.2 kv hkv).2.2.2 v hv).1⟩)
        calc ((r0 :: rs2).map (parseBlock ∘ emitRecord))
            = (r0 :: rs2).map id := List.map_congr_left this
          _ = r0 :: rs2 := List.map_id _
      rw [hmap]
      exact List.filter_eq_self.mpr (fun r hr => (hgood r hr).1)

/-! ## Helper lemmas: structure of parser output -/

theorem matchTagLine_facts : ∀ (l : Str) (kv : Str × Str), matchTagLine l = some kv →
    ']' ∉ kv.1 ∧ (∀ c ∈ kv.1, c ∈ l) ∧ (∀ c ∈ kv.2, c ∈ l) := by
  intro l kv hm
  match l with
  | [] => simp [matchTagLine] at hm
  | c :: rest =>
      rw [matchTagLine] at hm
      by_cases hc : c = '['
      · rw [if_pos hc] at hm
        simp only at hm
        split at hm
        · exact absurd hm (by simp)
        · exact absurd hm (by simp)
        · rename_i d1 d2 value heq
          by_cases hif : d1 = ']' ∧ d2 = ' '
          · rw [if_pos hif] at hm
            have he := Option.some.inj hm
            rw [← he]
            refine ⟨?_, ?_, ?_⟩
            · intro hmem
              have := List.mem_takeWhile_imp hmem
              simp at this
            · intro x hx
              exact List.mem_cons_of_mem _
                ((List.takeWhile_sublist _).subset hx)
            · intro x hx
              have hsub := List.drop_sublist
                (rest.takeWhile (fun y => y ≠ ']')).length rest
              rw [heq] at hsub
              exact List.mem_cons_of_mem _
                (hsub.subset (by simp [hx]))
          · rw [if_neg hif] at hm
            exact absurd hm (by simp)
      · rw [if_neg hc] at hm
        exact absurd hm (by simp)

theorem insertTag_keys_mem : ∀ (acc : Record) (k v : Str),
    k ∈ acc.map Prod.fst →
    (insertTag acc k v).map Prod.fst = acc.map Prod.fst := by
  intro acc k v h
  induction acc with
  | nil => simp at h
  | cons kv acc2 ih =>
      obtain ⟨k0, vs0⟩ := kv
      by_cases he : k0 = k
      · rw [insertTag, if_pos he]
        simp
      · have h1 : k ∈ acc2.map Prod.fst := by
          rcases List.mem_cons.mp h with h1 | h1
          · exact absurd h1.symm he
          · exact h1
        rw [insertTag, if_neg he]
        simp [ih h1]

theorem insertTag_keys_nodup (acc : Record) (k v : Str)
    (h : (acc.map Prod.fst).Nodup) : ((insertTag acc k v).map Prod.fst).Nodup := by
  by_cases hm : k ∈ acc.map Prod.fst
  · rw [insertTag_keys_mem acc k v hm]
    exact h
  · rw [insertTag_of_not_mem acc k v hm, List.map_append]
    rw [List.nodup_append]
    refine ⟨h, by simp, ?_⟩
    intro a ha hb
    simp only [List.map_cons, List.map_nil, List.mem_singleton] at hb
    rw [hb] at ha
    exact hm ha

theorem mem_insertTag : ∀ (acc : Record) (k v : Str) (kv : Str × List Str),
    kv ∈ insertTag acc k v →
    kv ∈ acc ∨ (kv.1 = k ∧ (kv.2 = [v] ∨ ∃ vs0, (k, vs0) ∈ acc ∧ kv.2 = vs0 ++ [v])) := by
  intro acc k v kv hm
  induction acc with
  | nil =>
      rw [insertTag] at hm
      rcases List.mem_singleton.mp hm with he
      rw [he]
      exact Or.inr ⟨rfl, Or.inl rfl⟩
  | cons kv0 acc2 ih =>
      obtain ⟨k0, vs0⟩ := kv0
      by_cases he : k0 = k
      · rw [insertTag, if_pos he] at hm
        rcases List.mem_cons.mp hm with h1 | h1
        · rw [h1]
          exact Or.inr ⟨he, Or.inr ⟨vs0, by rw [← he]; simp, rfl⟩⟩
        · exact Or.inl (List.mem_cons_of_mem _ h1)
      · rw [insertTag, if_neg he] at hm
        rcases List.mem_cons.mp hm with h1 | h1
        · exact Or.inl (by rw [h1]; simp)
        · rcases ih h1 with h2 | ⟨h2, h3⟩
          · exact Or.inl (List.mem_cons_of_mem _ h2)
          · refine Or.inr ⟨h2, ?_⟩
            rcases h3 with h4 | ⟨vs1, hv1, hv2⟩
            · exact Or.inl h4
            · exact Or.inr ⟨vs1, List.mem_cons_of_mem _ hv1, hv2⟩

theorem parseLine_goodStruct (acc : Record) (l : Str)
    (hl : '\n' ∉ l) (hacc : GoodStruct acc) : GoodStruct (parseLine acc l) := by
  rw [parseLine]
  rcases hm : matchTagLine l with _ | kv
  · exact hacc
  · have hfacts := matchTagLine_facts l kv hm
    constructor
    · exact insertTag_keys_nodup acc kv.1 kv.2 hacc.1
    · intro kv2 hkv2
      rcases mem_insertTag acc kv.1 kv.2 kv2 hkv2 with h1 | ⟨h1, h2⟩
      · exact hacc.2 kv2 h1
      · have hknl : '\n' ∉ kv.1 := fun m => hl (hfacts.2.1 _ m)
        have hvnl : '\n' ∉ kv.2 := fun m => hl (hfacts.2.2 _ m)
        rcases h2 with h3 | ⟨vs0, hv0, h3⟩
        · refine ⟨by rw [h3]; simp, by rw [h1]; exact hfacts.1, by rw [h1]; exact hknl, ?_⟩
          rw [h3]
          intro v hv
          rw [List.mem_singleton.mp hv]
          exact hvnl
        · have hold := hacc.2 (kv.1, vs0) (h1 ▸ hv0)
          refine ⟨by rw [h3]; simp, by rw [h1]; exact hfacts.1, by rw [h1]; exact hknl, ?_⟩
          rw [h3]
          intro v hv
          rcases List.mem_append.mp hv with h4 | h4
          · exact hold.2.2.2 v h4
          · rw [List.mem_singleton.mp h4]
            exact hvnl

theorem foldl_parseLine_good : ∀ (lines : List Str) (acc : Record),
    (∀ l ∈ lines, '\n' ∉ l) → GoodStruct acc →
    GoodStruct (lines.foldl parseLine acc) := by
  intro lines
  induction lines with
  | nil => intro acc _ h; exact h
  | cons l ls ih =>
      intro acc hl hacc
      rw [List.foldl_cons]
      exact ih _ (fun x hx => hl x (List.mem_cons_of_mem _ hx))
        (parseLine_goodStruct acc l (hl l (by simp)) hacc)

theorem parse_output_good (s : Str) :
    ∀ r ∈ parse_output s, keepRecord r = true ∧ GoodStruct r := by
  intro r hr
  rw [parse_output_def] at hr
  obtain ⟨hb, hkeep⟩ := List.mem_filter.mp hr
  rcases List.mem_map.mp hb with ⟨b, hbmem, hbeq⟩
  refine ⟨hkeep, ?_⟩
  rw [← hbeq, parseBlock]
  exact foldl_parseLine_good _ [] (fun l hl => splitNl_no_nl b l hl)
    ⟨by simp, by simp⟩

theorem endsDashes_iff (v : Str) :
    v.reverse.take 3 = ['-', '-', '-'] ↔ ∃ t, v = t ++ ['-', '-', '-'] := by
  constructor
  · intro h
    refine ⟨(v.reverse.drop 3).reverse, ?_⟩
    have hv : v.reverse = ['-', '-', '-'] ++ v.reverse.drop 3 := by
      conv_lhs => rw [← List.take_append_drop 3 v.reverse]
      rw [h]
    apply List.reverse_injective
    rw [List.reverse_append, List.reverse_reverse]
    simpa using hv
  · intro ⟨t, ht⟩
    rw [ht, List.reverse_append,
      show (['-', '-', '-'] : Str).reverse = ['-', '-', '-'] from rfl,
      show (3 : Nat) = (['-', '-', '-'] : Str).length from rfl, List.take_left]

/-! ## Helper lemmas: event traces -/

theorem mem_of_getLast?_eq {α : Type} : ∀ (l : List α) (a : α),
    l.getLast? = some a → a ∈ l := by
  intro l
  induction l with
  | nil => intro a h; simp at h
  | cons x t ih =>
      intro a h
      match t with
      | [] =>
          simp at h
          simp [h]
      | y :: t2 =>
          rw [List.getLast?_cons_cons] at h
          exact List.mem_cons_of_mem _ (ih a h)

theorem writesOf_nil : writesOf [] = [] := rfl

theorem writesOf_append (a b : List Event) :
    writesOf (a ++ b) = writesOf a ++ writesOf b :=
  List.filterMap_append _ _ _

theorem writesOf_write_cons (s : Str) (evs : List Event) :
    writesOf (Event.write s :: evs) = s :: writesOf evs := rfl

theorem writesOf_putArchive_cons (s : Str) (evs : List Event) :
    writesOf (Event.putArchive s :: evs) = writesOf evs := rfl

theorem writesOf_start_cons (evs : List Event) :
    writesOf (Event.startContainer :: evs) = writesOf evs := rfl

theorem writesOf_attach_cons (evs : List Event) :
    writesOf (Event.attachSocket :: evs) = writesOf evs := rfl

theorem writesOf_close_cons (evs : List Event) :
    writesOf (Event.closeSocket :: evs) = writesOf evs := rfl

theorem writesOf_wait_cons (evs : List Event) :
    writesOf (Event.waitContainer :: evs) = writesOf evs := rfl

theorem writesOf_logs_cons (evs : List Event) :
    writesOf (Event.logs :: evs) = writesOf evs := rfl

theorem writesOf_map_write (ws : List Str) :
    writesOf (ws.map Event.write) = ws := by
  induction ws with
  | nil => rfl
  | cons w t ih => rw [List.map_cons, writesOf_write_cons, ih]

theorem writeLoopTr_ok (api : ApiBehavior) (hw : ∀ w, api.writeOk w = true) :
    ∀ cmds : List Str,
      writeLoopTr api cmds = (true, cmds.map (fun c => Event.write (commandWrite c))) := by
  intro cmds
  induction cmds with
  | nil => rfl
  | cons c rest ih => simp [writeLoopTr, hw, ih]

theorem writeLoopTr_events (api : ApiBehavior) : ∀ cmds : List Str,
    ∃ ws : List Str, (writeLoopTr api cmds).2 = ws.map Event.write := by
  intro cmds
  induction cmds with
  | nil => exact ⟨[], rfl⟩
  | cons c rest ih =>
      rcases ih with ⟨ws, hws⟩
      by_cases h : api.writeOk (commandWrite c)
      · refine ⟨commandWrite c :: ws, ?_⟩
        simp [writeLoopTr, h, hws]
      · refine ⟨[], ?_⟩
        simp [writeLoopTr, h]

theorem streamPhase_events (api : ApiBehavior) (commands : List Str) :
    (streamPhase api commands).2 = [] ∨
    ∃ (ws : List Str) (tail : List Event),
      (streamPhase api commands).2 = Event.attachSocket :: ws.map Event.write ++ tail ∧
      (tail = [] ∨ tail = [Event.closeSocket] ∨
       tail = [Event.closeSocket, Event.waitContainer] ∨
       tail = [Event.closeSocket, Event.waitContainer, Event.logs]) := by
  by_cases ha : api.attachOk
  · rcases writeLoopTr_events api (commands ++ [exitCommand]) with ⟨ws, hws⟩
    rcases hwl : writeLoopTr api (commands ++ [exitCommand]) with ⟨ok, evs⟩
    rw [hwl] at hws
    simp only at hws
    right
    cases ok with
    | false =>
        refine ⟨ws, [], ?_, Or.inl rfl⟩
        simp [streamPhase, ha, hwl, hws]
    | true =>
        by_cases hc : api.closeOk
        · by_cases hw : api.waitOk
          · rcases hl : api.logsResult with e | out
            · refine ⟨ws, [Event.closeSocket, Event.waitContainer], ?_, by simp⟩
              simp [streamPhase, ha, hwl, hws, hc, hw, hl]
            · refine ⟨ws, [Event.closeSocket, Event.waitContainer, Event.logs], ?_, by simp⟩
              simp [streamPhase, ha, hwl, hws, hc, hw, hl]
          · refine ⟨ws, [Event.closeSocket], ?_, by simp⟩
            simp [streamPhase, ha, hwl, hws, hc, hw]
        · refine ⟨ws, [], ?_, Or.inl rfl⟩
          simp [streamPhase, ha, hwl, hws, hc]
  · left
    simp [streamPhase, ha]

theorem startPhase_events (api : ApiBehavior) (commands : List Str) :
    (startPhase api commands).2 = [] ∨
    (startPhase api commands).2 = Event.startContainer :: (streamPhase api commands).2 := by
  by_cases hs : api.startOk
  · right; simp [startPhase, hs]
  · left; simp [startPhase, hs]

theorem eval_events (api : ApiBehavior) (container : Nat) (commands : List Str) :
    ∀ src : Option Str,
      (eval_commands api container commands src).2 = (startPhase api commands).2 ∨
      (eval_commands api container commands src).2 = [] ∨
      ∃ s, src = some s ∧
        (eval_commands api container commands src).2 =
          Event.putArchive s :: (startPhase api commands).2 := by
  intro src
  match src with
  | none => exact Or.inl (by simp [eval_commands])
  | some s =>
      by_cases he : s.isEmpty
      · exact Or.inl (by simp [eval_commands, he])
      · by_cases hp : api.putArchiveOk
        · exact Or.inr (Or.inr ⟨s, rfl, by simp [eval_commands, he, hp]⟩)
        · exact Or.inr (Or.inl (by simp [eval_commands, he, hp]))

theorem remove_not_mem_streamPhase (api : ApiBehavior) (commands : List Str) :
    Event.removeContainer ∉ (streamPhase api commands).2 := by
  rcases streamPhase_events api commands with h | ⟨ws, tail, h, htail⟩
  · simp [h]
  · rw [h]
    intro hm
    rcases List.mem_cons.mp hm with h1 | h1
    · exact absurd h1 (by simp)
    · rcases List.mem_append.mp h1 with h2 | h2
      · rcases List.mem_map.mp h2 with ⟨w, _, hwe⟩
        exact absurd hwe (by simp)
      · rcases htail with rfl | rfl | rfl | rfl <;> simp at h2

theorem remove_not_mem_eval (api : ApiBehavior) (container : Nat)
    (commands : List Str) (src : Option Str) :
    Event.removeContainer ∉ (eval_commands api container commands src).2 := by
  have hstart : Event.removeContainer ∉ (startPhase api commands).2 := by
    rcases startPhase_events api commands with h | h
    · simp [h]
    · rw [h]
      intro hm
      rcases List.mem_cons.mp hm with h1 | h1
      · exact absurd h1 (by simp)
      · exact remove_not_mem_streamPhase api commands h1
  rcases eval_events api container commands src with h | h | ⟨s, _, h⟩
  · rw [h]; exact hstart
  · simp [h]
  · rw [h]
    intro hm
    rcases List.mem_cons.mp hm with h1 | h1
    · exact absurd h1 (by simp)
    · exact hstart h1

theorem remove_not_mem_retrieve (api : ApiBehavior) (container : Nat)
    (cfg : DistConfig) :
    Event.removeContainer ∉ (retrieve_archive_base64 api container cfg).2 := by
  rw [retrieve_archive_base64]
  by_cases he : (cfg.artifacts.getD []).isEmpty
  · simp [he]
  · rcases hg : api.getArchiveResult with e | members <;> simp [he, hg]

theorem writesOf_write_map (cmds : List Str) :
    writesOf (cmds.map fun c => Event.write (commandWrite c)) = cmds.map commandWrite := by
  induction cmds with
  | nil => rfl
  | cons c t ih => rw [List.map_cons, writesOf_write_cons, ih, List.map_cons]

theorem streamPhase_writes (api : ApiBehavior) (commands : List Str)
    (hattach : api.attachOk = true) (hw : ∀ w, api.writeOk w = true) :
    writesOf (streamPhase api commands).2 = (commands ++ [exitCommand]).map commandWrite := by
  have hwl := writeLoopTr_ok api hw (commands ++ [exitCommand])
  by_cases hc : api.closeOk <;> by_cases hwait : api.waitOk <;>
    rcases hl : api.logsResult with e | out <;>
    simp [streamPhase, hattach, hwl, hc, hwait, hl, writesOf_attach_cons,
      writesOf_append, writesOf_write_map, writesOf_write_cons, writesOf_close_cons,
      writesOf_wait_cons, writesOf_logs_cons, writesOf_nil]

theorem pairwise_of_mem {α : Type} (R : α → α → Prop) :
    ∀ l : List α, (∀ a ∈ l, ∀ b ∈ l, R a b) → l.Pairwise R := by
  intro l
  induction l with
  | nil => intro _; exact List.Pairwise.nil
  | cons a t ih =>
      intro h
      exact List.Pairwise.cons
        (fun b hb => h a (by simp) b (List.mem_cons_of_mem _ hb))
        (ih fun x hx y hy =>
          h x (List.mem_cons_of_mem _ hx) y (List.mem_cons_of_mem _ hy))

theorem streamPhase_sorted (api : ApiBehavior) (commands : List Str) :
    List.Pairwise (fun a b => eventPhase a ≤ eventPhase b) (streamPhase api commands).2 ∧
    ∀ e ∈ (streamPhase api commands).2, 3 ≤ eventPhase e := by
  rcases streamPhase_events api commands with h | ⟨ws, tail, h, htail⟩
  · rw [h]
    exact ⟨List.Pairwise.nil, by simp⟩
  · rw [h]
    have hW : ∀ e ∈ ws.map Event.write, eventPhase e = 4 := by
      intro e he
      rcases List.mem_map.mp he with ⟨w, _, hwe⟩
      rw [← hwe]
      rfl
    have hT : (tail.Pairwise fun a b => eventPhase a ≤ eventPhase b) ∧
        ∀ e ∈ tail, 5 ≤ eventPhase e := by
      rcases htail with rfl | rfl | rfl | rfl
      · exact ⟨List.Pairwise.nil, by simp⟩
      · refine ⟨by simp, ?_⟩
        intro e he
        rw [List.mem_singleton.mp he]
        decide
      · refine ⟨?_, ?_⟩
        · refine List.Pairwise.cons ?_ (by simp)
          intro b hb
          rw [List.mem_singleton.mp hb]
          decide
        · intro e he
          rcases List.mem_cons.mp he with h1 | h1
          · rw [h1]; decide
          · rw [List.mem_singleton.mp h1]; decide
      · refine ⟨?_, ?_⟩
        · refine List.Pairwise.cons ?_ ?_
          · intro b hb
            rcases List.mem_cons.mp hb with h1 | h1
            · rw [h1]; decide
            · rw [List.mem_singleton.mp h1]; decide
          · refine List.Pairwise.cons ?_ (by simp)
            intro b hb
            rw [List.mem_singleton.mp hb]
            decide
        · intro e he
          rcases List.mem_cons.mp he with h1 | h1
          · rw [h1]; decide
          · rcases List.mem_cons.mp h1 with h2 | h2
            · rw [h2]; decide
            · rw [List.mem_singleton.mp h2]; decide
    constructor
    · refine List.Pairwise.cons ?_ ?_
      · intro b hb
        rcases List.mem_append.mp hb with h1 | h1
        · rw [show eventPhase Event.attachSocket = 3 from rfl, hW b h1]
          decide
        · have := hT.2 b h1
          rw [show eventPhase Event.attachSocket = 3 from rfl]
          omega
      · refine List.pairwise_append.mpr ⟨?_, hT.1, ?_⟩
        · refine pairwise_of_mem _ _ ?_
          intro a ha b hb
          rw [hW a ha, hW b hb]
        · intro a ha b hb
          rw [hW a ha]
          have := hT.2 b hb
          omega
    · intro e he
      rcases List.mem_cons.mp he with h1 | h1
      · rw [h1]; decide
      · rcases List.mem_append.mp h1 with h2 | h2
        · rw [hW e h2]; decide
        · have := hT.2 e h2
          omega

theorem keys_empty_fold : ∀ (lines : List Str) (acc : Record),
    (∀ l ∈ lines, ∀ kv : Str × Str, matchTagLine l = some kv → kv.1.isEmpty = true) →
    (∀ kv ∈ acc, kv.1.isEmpty = true) →
    ∀ kv ∈ lines.foldl parseLine acc, kv.1.isEmpty = true := by
  intro lines
  induction lines with
  | nil => intro acc _ hacc; exact hacc
  | cons l ls ih =>
      intro acc hl hacc
      rw [List.foldl_cons]
      refine ih _ (fun x hx => hl x (List.mem_cons_of_mem _ hx)) ?_
      rw [parseLine]
      rcases hm : matchTagLine l with _ | kv0
      · exact hacc
      · intro kv' h'
        rcases mem_insertTag acc kv0.1 kv0.2 kv' h' with h1 | ⟨h1, _⟩
        · exact hacc kv' h1
        · rw [h1]
          exact hl l (by simp) kv0 hm

theorem replaceCrlf_cons_ne (c : Char) (b : Str) (h : c ≠ '\r') :
    replaceCrlf (c :: b) = c :: replaceCrlf b := by
  match b with
  | [] => rfl
  | y :: t => rw [replaceCrlf, if_neg (fun hc => h hc.1)]

/-! ## Claim theorems -/

/-- C1, counterexample: on the input `"[out] a---\n[out] b\n"` the code's
parser and the spec's divider-line-only parser disagree: the code splits at
the `---\n` ending the first line (two records result), while a parser
that splits only at lines whose exact content is `---` keeps the text as
one block. -/
theorem c1_divider_line_counterexample :
    parse_output "[out] a---\n[out] b\n".toList ≠
      specDividerLineParse "[out] a---\n[out] b\n".toList := by decide

/-- C1 (amended): the parser splits the normalized text at every
occurrence of the substring `---\n`, not only at dividers standing on a
line of their own: any prefix `a` whose normalization is free of that
substring, followed by `---\n`, followed by `b`, parses as the block for
`a` (kept when it yields a tagged record) followed by the parse of `b` —
in particular text on a line that merely ends with three dashes is cut
there. -/
theorem c1_divider_substring_split (a b : Str)
    (h : hasDiv (replaceCrlf a) = false) :
    parse_output (a ++ '-' :: '-' :: '-' :: '\n' :: b) =
      (if keepRecord (parseBlock (replaceCrlf a))
        then [parseBlock (replaceCrlf a)] else []) ++ parse_output b := by
  have hrep : replaceCrlf (a ++ '-' :: '-' :: '-' :: '\n' :: b) =
      replaceCrlf a ++ '-' :: '-' :: '-' :: '\n' :: replaceCrlf b := by
    rw [replaceCrlf_append a _ (by intro ⟨e1, e2⟩; simp at e2),
      replaceCrlf_cons_ne '-' _ (by decide),
      replaceCrlf_cons_ne '-' _ (by decide),
      replaceCrlf_cons_ne '-' _ (by decide),
      replaceCrlf_cons_ne '\n' _ (by decide)]
  rw [parse_output_def, hrep, splitDivider_append_div _ _ h, List.map_cons,
    List.filter_cons, parse_output_def]
  by_cases hk : keepRecord (parseBlock (replaceCrlf a))
  · simp [hk]
  · simp [hk]

/-- C1 witness: a concrete instance of the amended statement, with the
divider substring ending a tagged line. -/
theorem c1_divider_substring_split_witness :
    parse_output ("[out] x".toList ++ '-' :: '-' :: '-' :: '\n' :: "[out] y\n".toList) =
      (if keepRecord (parseBlock (replaceCrlf "[out] x".toList))
        then [parseBlock (replaceCrlf "[out] x".toList)] else []) ++
        parse_output "[out] y\n".toList :=
  c1_divider_substring_split "[out] x".toList "[out] y\n".toList (by decide)

/-- C2: when the configured artifacts list is empty or missing, the
archive-collection result is absent (`none`); when it is non-empty and
the retrieved archive succeeds but no member matches, the result is a
present, valid, empty archive (`some []`), not absent. -/
theorem c2_absent_iff_no_artifacts (api : ApiBehavior) (container : Nat)
    (cfg : DistConfig) :
    (cfg.artifacts.getD [] = [] →
      (retrieve_archive_base64 api container cfg).1 = Except.ok none) ∧
    ∀ members, api.getArchiveResult = Except.ok members →
      cfg.artifacts.getD [] ≠ [] →
      (∀ m ∈ members, selectMember cfg m = false) →
      (retrieve_archive_base64 api container cfg).1 = Except.ok (some []) := by
  constructor
  · intro h
    rw [retrieve_archive_base64]
    simp [h]
  · intro members hga hne hnone
    have hie : (cfg.artifacts.getD []).isEmpty = false := by
      rcases hA : cfg.artifacts.getD [] with _ | ⟨x, t⟩
      · exact absurd hA hne
      · rfl
    rw [retrieve_archive_base64]
    simp only [hie, Bool.false_eq_true, if_false, hga]
    rw [List.filter_eq_nil_iff.mpr fun m hm => by simp [hnone m hm]]

/-- C3, counterexample: the member `build/sub/a.txt` is selected by the
code for patterns `["*.txt"]` under `base_path="build"` (Python `fnmatch`
lets `*` cross `/`), while the spec's segment-limited glob rejects it —
so selection is not equivalent to segment-limited matching. -/
theorem c3_segment_glob_counterexample :
    (retrieve_archive_base64 c3Api 0 c3Config).1 = Except.ok (some [c3Member]) ∧
    specSelectMember c3Config c3Member = false := by decide

/-- C3 (amended): a member is selected iff its full relative path matches
some artifact pattern joined with `base_path` under Python `fnmatch`
semantics — case-sensitive on a POSIX host, but with `*` matching any
run of characters including `/` (it is not limited to one path
segment). -/
theorem c3_fnmatch_selection (api : ApiBehavior) (container : Nat)
    (cfg : DistConfig) (members : List TarMember) (m : TarMember)
    (hga : api.getArchiveResult = Except.ok members)
    (hne : cfg.artifacts.getD [] ≠ []) :
    ∃ out, (retrieve_archive_base64 api container cfg).1 = Except.ok (some out) ∧
      (m ∈ out ↔ m ∈ members ∧
        ((cfg.artifacts.getD []).any fun artifact =>
          fnmatch m.name (osPathJoin (cfg.base_path.getD []) artifact)) = true) := by
  have hie : (cfg.artifacts.getD []).isEmpty = false := by
    rcases hA : cfg.artifacts.getD [] with _ | ⟨x, t⟩
    · exact absurd hA hne
    · rfl
  refine ⟨members.filter (selectMember cfg), ?_, ?_⟩
  · rw [retrieve_archive_base64]
    simp [hie, hga]
  · rw [List.mem_filter]
    exact Iff.rfl

/-- C3 witness: the amended selection criterion instantiated at the
concrete member and configuration. -/
theorem c3_fnmatch_selection_witness :
    ∃ out, (retrieve_archive_base64 c3Api 0 c3Config).1 = Except.ok (some out) ∧
      (c3Member ∈ out ↔ c3Member ∈ [c3Member] ∧
        ((c3Config.artifacts.getD []).any fun artifact =>
          fnmatch c3Member.name (osPathJoin (c3Config.base_path.getD []) artifact)) = true) :=
  c3_fnmatch_selection c3Api 0 c3Config [c3Member] c3Member rfl (by decide)

/-- C5: the spec's example input parses to exactly the two stated
records, with the two `out` lines of the first block kept in emission
order. -/
theorem c5_example_parse :
    parse_output "[out] hello\n[out] world\n---\n[out] done\n".toList =
      [[("out".toList, ["hello".toList, "world".toList])],
       [("out".toList, ["done".toList])]] := by decide

/-- C4, counterexample: when the `start` call raises, `run` propagates
the error and the container is never removed — cleanup is not guaranteed
on error paths. -/
theorem c4_cleanup_counterexample :
    (run apiFailStart plainRequest).1 = Except.error Err.apiError ∧
    Event.removeContainer ∉ (run apiFailStart plainRequest).2 := by decide

/-- C4 (amended): the container is removed exactly on the fully
successful path — `remove_container` appears in the trace iff the
operation returns a result, and then it is the last call before
returning; on any failing path (streaming, parsing-stage collaborators,
archive collection, or the removal call itself raising) the error
propagates with no removal performed. -/
theorem c4_cleanup_on_success_only (api : ApiBehavior) (request : Request) :
    (Event.removeContainer ∈ (run api request).2 ↔
      ∃ res, (run api request).1 = Except.ok res) ∧
    ((run api request).2.getLast? = some Event.removeContainer ↔
      ∃ res, (run api request).1 = Except.ok res) := by
  rcases hcr : api.createResult with e | container
  · simp only [run, hcr]
    constructor
    · constructor
      · intro hm; simp at hm
      · intro ⟨res, hres⟩; exact absurd hres (by simp)
    · constructor
      · intro hl; simp at hl
      · intro ⟨res, hres⟩; exact absurd hres (by simp)
  · have hnev := remove_not_mem_eval api container (request.commands.getD []) request.source
    rcases hev : eval_commands api container (request.commands.getD []) request.source
      with ⟨r1, evs1⟩
    rw [hev] at hnev
    simp only at hnev
    rcases r1 with e | lines
    · simp only [run, hcr, hev]
      constructor
      · constructor
        · intro hm
          rcases List.mem_cons.mp hm with h1 | h1
          · exact absurd h1 (by simp)
          · exact absurd h1 hnev
        · intro ⟨res, hres⟩; exact absurd hres (by simp)
      · constructor
        · intro hl
          have hm := mem_of_getLast?_eq _ _ hl
          rcases List.mem_cons.mp hm with h1 | h1
          · exact absurd h1 (by simp)
          · exact absurd h1 hnev
        · intro ⟨res, hres⟩; exact absurd hres (by simp)
    · have hnar := remove_not_mem_retrieve api container
        (request.dist.getD { base_path := none, artifacts := none })
      rcases har : retrieve_archive_base64 api container
          (request.dist.getD { base_path := none, artifacts := none }) with ⟨r2, evs2⟩
      rw [har] at hnar
      simp only at hnar
      rcases r2 with e | output_tarball
      · simp only [run, hcr, hev, har]
        constructor
        · constructor
          · intro hm
            rcases List.mem_cons.mp hm with h1 | h1
            · exact absurd h1 (by simp)
            · rcases List.mem_append.mp h1 with h2 | h2
              · exact absurd h2 hnev
              · exact absurd h2 hnar
          · intro ⟨res, hres⟩; exact absurd hres (by simp)
        · constructor
          · intro hl
            have hm := mem_of_getLast?_eq _ _ hl
            rcases List.mem_cons.mp hm with h1 | h1
            · exact absurd h1 (by simp)
            · rcases List.mem_append.mp h1 with h2 | h2
              · exact absurd h2 hnev
              · exact absurd h2 hnar
          · intro ⟨res, hres⟩; exact absurd hres (by simp)
      · by_cases hrm : api.removeOk
        · simp only [run, hcr, hev, har, hrm, if_true]
          constructor
          · constructor
            · intro _; exact ⟨_, rfl⟩
            · intro _; simp
          · constructor
            · intro _; exact ⟨_, rfl⟩
            · intro _
              exact List.getLast?_concat _
        · simp only [run, hcr, hev, har, hrm, if_false]
          constructor
          · constructor
            · intro hm
              rcases List.mem_cons.mp hm with h1 | h1
              · exact absurd h1 (by simp)
              · rcases List.mem_append.mp h1 with h2 | h2
                · exact absurd h2 hnev
                · exact absurd h2 hnar
            · intro ⟨res, hres⟩; exact absurd hres (by simp)
          · constructor
            · intro hl
              have hm := mem_of_getLast?_eq _ _ hl
              rcases List.mem_cons.mp hm with h1 | h1
              · exact absurd h1 (by simp)
              · rcases List.mem_append.mp h1 with h2 | h2
                · exact absurd h2 hnev
                · exact absurd h2 hnar
            · intro ⟨res, hres⟩; exact absurd hres (by simp)

/-- C6, counterexample: the record list parsed from `"[out] x---"` (a
value ending in three dashes) does not survive a reconstruct-reparse
round trip — the re-emitted line ends in `---\n`, which the parser treats
as a divider. -/
theorem c6_idempotence_counterexample :
    parse_output (reconstructOutput (parse_output "[out] x---".toList)) ≠
      parse_output "[out] x---".toList := by decide

/-- C6 (amended): reparsing the reconstructed text yields the same
records for every parser output in which no value ends in three dashes
or in a carriage return (the two ways a re-emitted line can collide with
the divider substring or CRLF normalization). -/
theorem c6_reparse_normalized (s : Str)
    (hcond : ∀ r ∈ parse_output s, ∀ kv ∈ r, ∀ v ∈ kv.2,
      v.reverse.take 3 ≠ ['-', '-', '-'] ∧ v.getLast? ≠ some '\r') :
    parse_output (reconstructOutput (parse_output s)) = parse_output s := by
  apply parse_reconstruct
  intro r hr
  have hg := parse_output_good s r hr
  refine ⟨hg.1, hg.2.1, ?_⟩
  intro kv hkv
  have hstruct := hg.2.2 kv hkv
  refine ⟨hstruct.1, hstruct.2.1, hstruct.2.2.1, ?_⟩
  intro v hv
  have hc := hcond r hr kv hkv v hv
  refine ⟨hstruct.2.2.2 v hv, ?_, hc.2⟩
  intro t ht
  exact hc.1 ((endsDashes_iff v).mpr ⟨t, ht⟩)

/-- C6 witness: the round trip at a concrete two-block output with plain
values. -/
theorem c6_reparse_normalized_witness :
    parse_output (reconstructOutput
      (parse_output "[out] hello\n[err] bad\n---\n[out] done\n".toList)) =
      parse_output "[out] hello\n[err] bad\n---\n[out] done\n".toList :=
  c6_reparse_normalized "[out] hello\n[err] bad\n---\n[out] done\n".toList (by decide)

/-- C7: the parser is total (the embedding is a total function) and
degrades rather than fails: the record list is never longer than the
block list, and a line that does not match the tag pattern is discarded
silently — removing it from any block leaves the fold unchanged. -/
theorem c7_parser_total_discard (output : Str) :
    (parse_output output).length ≤ (splitDivider (replaceCrlf output)).length ∧
    ∀ (pre post : List Str) (l : Str) (acc : Record), matchTagLine l = none →
      (pre ++ l :: post).foldl parseLine acc = (pre ++ post).foldl parseLine acc := by
  constructor
  · rw [parse_output_def]
    calc (((splitDivider (replaceCrlf output)).map parseBlock).filter keepRecord).length
        ≤ ((splitDivider (replaceCrlf output)).map parseBlock).length :=
          List.length_filter_le _ _
      _ = (splitDivider (replaceCrlf output)).length := List.length_map _ _
  · intro pre post l acc hm
    rw [List.foldl_append, List.foldl_append, List.foldl_cons]
    simp only [parseLine, hm]

/-- C8: with the collaborators succeeding, the strings written to the
stream are exactly each command with embedded newlines replaced by
`" ; "` and a final newline appended, in request order, followed by the
single sentinel line `exit\n`. -/
theorem c8_command_writes (api : ApiBehavior) (container : Nat)
    (commands : List Str) (source_base64 : Option Str)
    (hput : api.putArchiveOk = true) (hstart : api.startOk = true)
    (hattach : api.attachOk = true) (hw : ∀ w, api.writeOk w = true) :
    writesOf (eval_commands api container commands source_base64).2 =
      (commands ++ [exitCommand]).map commandWrite := by
  have hstream := streamPhase_writes api commands hattach hw
  have hstartw : writesOf (startPhase api commands).2 =
      (commands ++ [exitCommand]).map commandWrite := by
    simp only [startPhase, hstart, if_true]
    rw [writesOf_start_cons, hstream]
  match source_base64 with
  | none =>
      rw [eval_commands]
      exact hstartw
  | some src =>
      by_cases he : src.isEmpty
      · simp only [eval_commands, he, if_true]
        exact hstartw
      · simp only [eval_commands, he, Bool.false_eq_true, if_false, hput, if_true]
        rw [writesOf_putArchive_cons, hstartw]

/-- C8 witness: the spec's example — the command list
`["echo a\necho b"]` streams exactly `"echo a ; echo b\n"` then
`"exit\n"`. -/
theorem c8_command_writes_witness :
    writesOf (eval_commands apiAllOk 0 ["echo a\necho b".toList] none).2 =
      ["echo a ; echo b\n".toList, "exit\n".toList] :=
  (c8_command_writes apiAllOk 0 ["echo a\necho b".toList] none rfl rfl rfl
    (fun _ => rfl)).trans (by decide)

/-- C9: for a request carrying a (non-empty) source blob, the API calls
of `eval_commands` happen in source order — the trace is sorted by call
phase, the environment is started only after the source was unpacked,
and a command is streamed only after the environment was started. -/
theorem c9_unpack_start_stream_order (api : ApiBehavior) (container : Nat)
    (commands : List Str) (src : Str) (hsrc : src ≠ []) :
    List.Pairwise (fun a b => eventPhase a ≤ eventPhase b)
      (eval_commands api container commands (some src)).2 ∧
    (Event.startContainer ∈ (eval_commands api container commands (some src)).2 →
      Event.putArchive src ∈ (eval_commands api container commands (some src)).2) ∧
    ∀ w, Event.write w ∈ (eval_commands api container commands (some src)).2 →
      Event.startContainer ∈ (eval_commands api container commands (some src)).2 := by
  have hie : src.isEmpty = false := by
    cases src with
    | nil => exact absurd rfl hsrc
    | cons c t => rfl
  by_cases hp : api.putArchiveOk
  · simp only [eval_commands, hie, Bool.false_eq_true, if_false, hp, if_true]
    by_cases hs : api.startOk
    · simp only [startPhase, hs, if_true]
      have hsort := streamPhase_sorted api commands
      refine ⟨?_, ?_, ?_⟩
      · refine List.Pairwise.cons ?_ ?_
        · intro b hb
          rcases List.mem_cons.mp hb with h1 | h1
          · rw [h1]
            exact show (1 : Nat) ≤ 2 by decide
          · have := hsort.2 b h1
            rw [show eventPhase (Event.putArchive src) = 1 from rfl]
            omega
        · refine List.Pairwise.cons ?_ hsort.1
          intro b hb
          have := hsort.2 b hb
          rw [show eventPhase Event.startContainer = 2 from rfl]
          omega
      · intro _; simp
      · intro w _; simp
    · simp only [startPhase, hs, Bool.false_eq_true, if_false]
      refine ⟨?_, ?_, ?_⟩
      · exact List.Pairwise.cons (fun b hb => by simp at hb) List.Pairwise.nil
      · intro hm; simp at hm
      · intro w hm; simp at hm
  · simp only [eval_commands, hie, Bool.false_eq_true, if_false, hp]
    exact ⟨List.Pairwise.nil, by simp, by simp⟩

/-- C9 witness: the ordering facts at a concrete request with a source
blob and one command, under a fully cooperative API. -/
theorem c9_unpack_start_stream_order_witness :
    List.Pairwise (fun a b => eventPhase a ≤ eventPhase b)
      (eval_commands apiAllOk 0 ["make".toList] (some "c3Jj".toList)).2 ∧
    (Event.startContainer ∈ (eval_commands apiAllOk 0 ["make".toList] (some "c3Jj".toList)).2 →
      Event.putArchive "c3Jj".toList ∈
        (eval_commands apiAllOk 0 ["make".toList] (some "c3Jj".toList)).2) ∧
    ∀ w, Event.write w ∈ (eval_commands apiAllOk 0 ["make".toList] (some "c3Jj".toList)).2 →
      Event.startContainer ∈ (eval_commands apiAllOk 0 ["make".toList] (some "c3Jj".toList)).2 :=
  c9_unpack_start_stream_order apiAllOk 0 ["make".toList] "c3Jj".toList (by decide)

/-- C10: a block whose tag-matching lines all carry the empty-string tag
produces no record — record retention tests the truthiness of the
collected tag names, and the empty string is falsy, so the whole parse
result is empty when every matching line's tag is empty. -/
theorem c10_empty_tag_block_dropped (output : Str)
    (h : allEmptyTags output = true) : parse_output output = [] := by
  rw [parse_output_def]
  rw [List.filter_eq_nil_iff]
  intro r hr
  rcases List.mem_map.mp hr with ⟨b, hb, hbe⟩
  rw [allEmptyTags, List.all_eq_true] at h
  have hbl := h b hb
  rw [List.all_eq_true] at hbl
  have hblock : ∀ l ∈ splitNl b, ∀ kv : Str × Str,
      matchTagLine l = some kv → kv.1.isEmpty = true := by
    intro l hl kv hkv
    have := hbl l hl
    rw [hkv] at this
    exact this
  have hkeys := keys_empty_fold (splitNl b) [] hblock (by simp)
  rw [← hbe]
  intro hkeep
  rw [keepRecord, List.any_eq_true] at hkeep
  rcases hkeep with ⟨kv, hkv, hbool⟩
  rw [parseBlock] at hkv
  have := hkeys kv hkv
  rw [this] at hbool
  simp at hbool

/-- C10 witness: the input `"[] text\n"` parses to no records at all. -/
theorem c10_empty_tag_block_dropped_witness :
    parse_output "[] text\n".toList = [] :=
  c10_empty_tag_block_dropped "[] text\n".toList (by decide)

end TunnelRpc
